import Mathlib

/-!
Shallow embedding of the Merkle accumulator layer of snarkfront
(src/MerkleTree.hpp): MerkleAuthPath, MerkleTree (the accumulator),
MerkleBundle, and their textual marshalling, together with a spec-side
ideal tree model used to state the refinement claims.

Conventions of the embedding:
* Digests are an abstract type parameter Dig with decidable equality.
  The hash capability is a binary function H : Dig -> Dig -> Dig, where
  H left right stands for clearing the message state, feeding the two
  digests and finalising.  The canonical zero digest is a parameter z.
* Child bits (the eval variant stores plain 0/1 ints) are modelled as
  Bool; a nonzero int is truthy.
* The C++ int return value of incChildBits is modelled as Option Nat,
  with none standing for -1.
* size_t arithmetic that can wrap (depth - 1 at depth 0) is performed in
  Int, matching the usual arithmetic conversions of the C++ comparisons.
* Text streams are modelled as lists of tokens: an unsigned integer
  token or a digest token.  Booleans and child bits travel as integer
  tokens, exactly as operator<< prints them.
-/

/-- Authentication path from a binary Merkle tree
(class MerkleAuthPath of src/MerkleTree.hpp).  Vectors are bottom-up:
index 0 is at the leaves. -/
structure MerkleAuthPath (Dig : Type) where
  depth : Nat
  rootPath : List Dig
  siblings : List Dig
  childBits : List Bool
deriving DecidableEq

/-- The eval constructor MerkleAuthPath(depth): siblings and childBits
filled with zeros, rootPath value-initialised (zero digests). -/
def MerkleAuthPath.init {Dig : Type} (z : Dig) (depth : Nat) : MerkleAuthPath Dig :=
  { depth := depth
    rootPath := List.replicate depth z
    siblings := List.replicate depth z
    childBits := List.replicate depth false }

/-- The default constructor: the depth-0 sentinel. -/
def MerkleAuthPath.fresh {Dig : Type} : MerkleAuthPath Dig :=
  { depth := 0, rootPath := [], siblings := [], childBits := [] }

/-- rootHash() returns m_rootPath.back(); on the depth-0 sentinel the C++
call is undefined, here it defaults to the zero digest. -/
def MerkleAuthPath.rootHash {Dig : Type} (z : Dig) (ap : MerkleAuthPath Dig) : Dig :=
  ap.rootPath.getLastD z

/-- Modelled from the spec: ternary(bit, a, b) (declared outside src/)
returns a when the bit is truthy and b otherwise; this is the numeric
variant used by the eval instantiation. -/
def ternary {Dig : Type} (b : Bool) (x y : Dig) : Dig :=
  if b then x else y

/-- Length of the common prefix of two lists. -/
def commonPrefixLen : List Bool → List Bool → Nat
  | a :: as, b :: bs => if a = b then commonPrefixLen as bs + 1 else 0
  | _, _ => 0

/-- Modelled from the spec: matchMSB (declared in DSL_utility.hpp, which
is not under src/) returns the length, counted from the most-significant
end of the bottom-up bit vectors, of the longest common prefix of the two
leaf positions read top-down. -/
def matchMSB (xs ys : List Bool) : Nat :=
  commonPrefixLen xs.reverse ys.reverse

/-- One level of the snapshot-patching done inside updatePath:
with pathLen = depth - 1 - i the distance from the root to the node just
hashed, a snapshot whose overlap is at least pathLen gets its rootPath
entry overwritten, and one whose overlap is exactly pathLen - 1 gets its
level-(i+1) sibling overwritten.  The comparisons are those of the C++
code (int against size_t expression), taken in Int. -/
def patchOld {Dig : Type} (depth i : Nat) (d : Dig) (p : MerkleAuthPath Dig)
    (ov : Nat) : MerkleAuthPath Dig :=
  if (depth : Int) - 1 - (i : Int) ≤ (ov : Int) then
    { p with rootPath := p.rootPath.set i d }
  else if (depth : Int) - 1 - (i : Int) = (ov : Int) + 1 then
    { p with siblings := p.siblings.set (i + 1) d }
  else p

/-- The ascend-to-root loop of updatePath: fuel counts the remaining
levels, i is the current level, dig the digest computed so far, rp the
rootPath being filled in, olds the snapshots paired with their overlap. -/
def updLoop {Dig : Type} (H : Dig → Dig → Dig) (z : Dig) (depth : Nat)
    (sibs : List Dig) (cbits : List Bool) :
    Nat → Nat → Dig → List Dig → List (MerkleAuthPath Dig × Nat) →
    Dig × List Dig × List (MerkleAuthPath Dig × Nat)
  | 0, _, dig, rp, olds => (dig, rp, olds)
  | fuel + 1, i, dig, rp, olds =>
    let isR := cbits.getD i false
    let d := H (ternary isR (sibs.getD i z) dig) (ternary isR dig (sibs.getD i z))
    updLoop H z depth sibs cbits fuel (i + 1) d (rp.set i d)
      (olds.map (fun q => (patchOld depth i d q.1 q.2, q.2)))

/-- updatePath(leaf, oldPaths): recompute the receiver's rootPath from the
leaf, patching every old path whose position overlaps; after the loop a
snapshot differing from the receiver in the last bit only receives the
leaf as its level-0 sibling. -/
def MerkleAuthPath.updatePathOld {Dig : Type} (H : Dig → Dig → Dig) (z : Dig)
    (ap : MerkleAuthPath Dig) (leaf : Dig) (olds : List (MerkleAuthPath Dig)) :
    MerkleAuthPath Dig × List (MerkleAuthPath Dig) :=
  let withOv := olds.map (fun p => (p, matchMSB ap.childBits p.childBits))
  let r := updLoop H z ap.depth ap.siblings ap.childBits ap.depth 0 leaf ap.rootPath withOv
  let final := r.2.2.map (fun q =>
    if (ap.depth : Int) - 1 = (q.2 : Int) then
      { q.1 with siblings := q.1.siblings.set 0 leaf }
    else q.1)
  ({ ap with rootPath := r.2.1 }, final)

/-- updatePath(leaf): the one-argument overload uses an empty dummy
vector of old paths. -/
def MerkleAuthPath.updatePath {Dig : Type} (H : Dig → Dig → Dig) (z : Dig)
    (ap : MerkleAuthPath Dig) (leaf : Dig) : MerkleAuthPath Dig :=
  (ap.updatePathOld H z leaf []).1

/-- leafSibling: the just added leaf becomes the left sibling. -/
def MerkleAuthPath.leafSibling {Dig : Type} (ap : MerkleAuthPath Dig)
    (leaf : Dig) : MerkleAuthPath Dig :=
  { ap with siblings := ap.siblings.set 0 leaf }

/-- hashSibling(index): new branch in the Merkle tree; the completed left
subtree root becomes the sibling at the given level and all lower
siblings are reset to the zero digest. -/
def MerkleAuthPath.hashSibling {Dig : Type} (z : Dig) (ap : MerkleAuthPath Dig)
    (index : Nat) : MerkleAuthPath Dig :=
  let s1 := ap.siblings.set index (ap.rootPath.getD (index - 1) z)
  { ap with
    siblings := (List.range s1.length).map (fun i => if i < index then z else s1.getD i z) }

/-- The increment-with-carry on the bottom-up child bits; returns the new
bits and the index of the first bit that became one (none models the C++
return value -1: the counter wrapped to all zeros). -/
def incChildBitsList : List Bool → List Bool × Option Nat
  | [] => ([], none)
  | b :: rest =>
    if b = false then (true :: rest, some 0)
    else
      let r := incChildBitsList rest
      (false :: r.1, r.2.map (· + 1))

/-- incChildBits() on an authentication path. -/
def MerkleAuthPath.incChildBits {Dig : Type} (ap : MerkleAuthPath Dig) :
    MerkleAuthPath Dig × Option Nat :=
  let r := incChildBitsList ap.childBits
  ({ ap with childBits := r.1 }, r.2)

/-- Binary Merkle tree (class MerkleTree): the isFull flag plus the
frontier authentication path. -/
structure MerkleTree (Dig : Type) where
  isFull : Bool
  authPath : MerkleAuthPath Dig
deriving DecidableEq

/-- The default constructor MerkleTree(): full, with the depth-0 path. -/
def MerkleTree.fresh {Dig : Type} : MerkleTree Dig :=
  { isFull := true, authPath := MerkleAuthPath.fresh }

/-- MerkleTree(depth): not full, frontier of the given depth. -/
def MerkleTree.init {Dig : Type} (z : Dig) (depth : Nat) : MerkleTree Dig :=
  { isFull := false, authPath := MerkleAuthPath.init z depth }

/-- updatePath(leaf, v) on the tree delegates to the frontier. -/
def MerkleTree.updatePathOld {Dig : Type} (H : Dig → Dig → Dig) (z : Dig)
    (t : MerkleTree Dig) (leaf : Dig) (olds : List (MerkleAuthPath Dig)) :
    MerkleTree Dig × List (MerkleAuthPath Dig) :=
  let r := t.authPath.updatePathOld H z leaf olds
  ({ t with authPath := r.1 }, r.2)

/-- updateSiblings(leaf): prepare the tree for the next leaf.  The
counter is incremented; on wrap the tree latches full, if the next leaf
is a right child the just added leaf becomes its sibling, otherwise the
completed subtree root becomes the sibling of the new branch. -/
def MerkleTree.updateSiblings {Dig : Type} (z : Dig) (t : MerkleTree Dig)
    (leaf : Dig) : MerkleTree Dig :=
  let r := t.authPath.incChildBits
  match r.2 with
  | none => { t with isFull := true, authPath := r.1 }
  | some 0 => { t with authPath := r.1.leafSibling leaf }
  | some (k + 1) => { t with authPath := r.1.hashSibling z (k + 1) }

/-- Merkle tree with retained authentication paths
(class MerkleBundle).  The COUNT template parameter is modelled as Nat. -/
structure MerkleBundle (Dig : Type) where
  tree : MerkleTree Dig
  treeSize : Nat
  authLeaf : List Dig
  authPath : List (MerkleAuthPath Dig)
deriving DecidableEq

/-- The default constructor MerkleBundle(). -/
def MerkleBundle.fresh {Dig : Type} : MerkleBundle Dig :=
  { tree := MerkleTree.fresh, treeSize := 0, authLeaf := [], authPath := [] }

/-- MerkleBundle(depth). -/
def MerkleBundle.init {Dig : Type} (z : Dig) (depth : Nat) : MerkleBundle Dig :=
  { tree := MerkleTree.init z depth, treeSize := 0, authLeaf := [], authPath := [] }

/-- isFull() on the bundle. -/
def MerkleBundle.isFull {Dig : Type} (b : MerkleBundle Dig) : Bool :=
  b.tree.isFull

/-- rootHash() on the bundle. -/
def MerkleBundle.rootHash {Dig : Type} (z : Dig) (b : MerkleBundle Dig) : Dig :=
  b.tree.authPath.rootHash z

/-- addLeaf(cm, keepPath): update the frontier patching all retained
snapshots, optionally retain the just-updated path, then advance the
siblings and the size.  Note that fullness is not checked. -/
def MerkleBundle.addLeaf {Dig : Type} (H : Dig → Dig → Dig) (z : Dig)
    (b : MerkleBundle Dig) (cm : Dig) (keep : Bool) : MerkleBundle Dig :=
  let r := b.tree.updatePathOld H z cm b.authPath
  let al := if keep then b.authLeaf ++ [cm] else b.authLeaf
  let aps := if keep then r.2 ++ [r.1.authPath] else r.2
  { tree := r.1.updateSiblings z cm
    treeSize := b.treeSize + 1
    authLeaf := al
    authPath := aps }

/-- authGarbageCollect(keepSet): one pass over the indices of authLeaf,
keeping the leaf/path pairs whose leaf is in the keep-set.  The keep-set
is modelled as a membership predicate on digests. -/
def MerkleBundle.authGarbageCollect {Dig : Type} (z : Dig) (b : MerkleBundle Dig)
    (keep : Dig → Bool) : MerkleBundle Dig :=
  let idx := (List.range b.authLeaf.length).filter (fun i => keep (b.authLeaf.getD i z))
  { b with
    authLeaf := idx.map (fun i => b.authLeaf.getD i z)
    authPath := idx.map (fun i => b.authPath.getD i MerkleAuthPath.fresh) }

/-! ### Marshalling

The text streams are modelled as token lists.  The repository's stream
operators for digests and primitive integers are external collaborators;
its operators for homogeneous sequences are declared outside src/ and
are modelled from the spec as length-prefixed sequences. -/

/-- A whitespace-delimited token of the textual format: an unsigned
integer (also carrying booleans and child bits, printed as 0/1) or a
digest. -/
inductive Tok (Dig : Type) where
  | nat : Nat → Tok Dig
  | dig : Dig → Tok Dig
deriving DecidableEq

/-- Reading an unsigned integer from the stream. -/
def readNat {Dig : Type} : List (Tok Dig) → Option (Nat × List (Tok Dig))
  | Tok.nat n :: ts => some (n, ts)
  | _ => none

/-- Reading a bool from the stream (stream extraction into bool fails on
anything but 0 and 1). -/
def readBool {Dig : Type} : List (Tok Dig) → Option (Bool × List (Tok Dig))
  | Tok.nat 0 :: ts => some (false, ts)
  | Tok.nat 1 :: ts => some (true, ts)
  | _ => none

/-- A bool as printed by operator<<. -/
def boolOut {Dig : Type} (b : Bool) : Tok Dig :=
  Tok.nat (if b then 1 else 0)

/-- vector::resize modelled on lists: truncate or pad with the given
value-initialised element. -/
def resizeWith {α : Type} (d : α) (xs : List α) (n : Nat) : List α :=
  xs.take n ++ List.replicate (n - xs.length) d

/-- Modelled from the spec: the stream insertion of a homogeneous
sequence (declared outside src/) is length-prefixed. -/
def vecOut {Dig : Type} (xs : List Dig) : List (Tok Dig) :=
  Tok.nat xs.length :: xs.map Tok.dig

/-- Element-wise fill of an already resized vector from the stream;
failure part-way leaves the portion read so far in place. -/
def fillDigs {Dig : Type} (z : Dig) :
    List Dig → Nat → Nat → List (Tok Dig) → List Dig × List (Tok Dig) × Bool
  | xs, _, 0, ts => (xs, ts, true)
  | xs, i, n + 1, Tok.dig d :: ts => fillDigs z (xs.set i d) (i + 1) n ts
  | xs, _, _ + 1, ts => (xs, ts, false)

/-- Modelled from the spec: the stream extraction of a homogeneous
sequence (declared outside src/) reads the length prefix, resizes, and
reads that many elements. -/
def vecIn {Dig : Type} (z : Dig) (old : List Dig) :
    List (Tok Dig) → List Dig × List (Tok Dig) × Bool
  | Tok.nat m :: ts => fillDigs z (resizeWith z old m) 0 m ts
  | ts => (old, ts, false)

/-- Element-wise fill of the child-bit vector (the eval bits are ints;
a nonzero value reads back as a truthy bit). -/
def fillBits {Dig : Type} :
    List Bool → Nat → Nat → List (Tok Dig) → List Bool × List (Tok Dig) × Bool
  | bs, _, 0, ts => (bs, ts, true)
  | bs, i, n + 1, Tok.nat v :: ts => fillBits (bs.set i (decide (v ≠ 0))) (i + 1) n ts
  | bs, _, _ + 1, ts => (bs, ts, false)

/-- MerkleAuthPath::marshal_out: depth, rootPath, siblings, then the
child bits one by one. -/
def MerkleAuthPath.marshal_out {Dig : Type} (ap : MerkleAuthPath Dig) :
    List (Tok Dig) :=
  Tok.nat ap.depth :: (vecOut ap.rootPath ++ vecOut ap.siblings ++ ap.childBits.map boolOut)

/-- MerkleAuthPath::marshal_in: depth doubles as the valid flag; it is
zeroed first and only restored on success.  A zero length is a failure. -/
def MerkleAuthPath.marshal_in {Dig : Type} (z : Dig) (ap : MerkleAuthPath Dig)
    (ts : List (Tok Dig)) : MerkleAuthPath Dig × List (Tok Dig) × Bool :=
  let ap0 : MerkleAuthPath Dig := { ap with depth := 0 }
  match readNat ts with
  | none => (ap0, ts, false)
  | some (len, ts1) =>
    if len = 0 then (ap0, ts1, false)
    else
      let rp := vecIn z (resizeWith z ap0.rootPath len) ts1
      let ap1 : MerkleAuthPath Dig := { ap0 with rootPath := rp.1 }
      if rp.2.2 = false then (ap1, rp.2.1, false)
      else
        let sb := vecIn z (resizeWith z ap1.siblings len) rp.2.1
        let ap2 : MerkleAuthPath Dig := { ap1 with siblings := sb.1 }
        if sb.2.2 = false then (ap2, sb.2.1, false)
        else
          let cb := fillBits (resizeWith false ap2.childBits len) 0 len sb.2.1
          let ap3 : MerkleAuthPath Dig := { ap2 with childBits := cb.1 }
          if cb.2.2 = false then (ap3, cb.2.1, false)
          else ({ ap3 with depth := len }, cb.2.1, true)

/-- MerkleTree::marshal_out: the full flag then the frontier. -/
def MerkleTree.marshal_out {Dig : Type} (t : MerkleTree Dig) : List (Tok Dig) :=
  boolOut t.isFull :: t.authPath.marshal_out

/-- MerkleTree::marshal_in: isFull doubles as the valid flag; set to true
first and only replaced by the parsed flag on success. -/
def MerkleTree.marshal_in {Dig : Type} (z : Dig) (t : MerkleTree Dig)
    (ts : List (Tok Dig)) : MerkleTree Dig × List (Tok Dig) × Bool :=
  let t0 : MerkleTree Dig := { t with isFull := true }
  match readBool ts with
  | none => (t0, ts, false)
  | some (full, ts1) =>
    let r := t0.authPath.marshal_in z ts1
    let t1 : MerkleTree Dig := { t0 with authPath := r.1 }
    if r.2.2 = false then (t1, r.2.1, false)
    else ({ t1 with isFull := full }, r.2.1, true)

/-- Sequential marshal_in of the retained paths into an already resized
vector. -/
def readPaths {Dig : Type} (z : Dig) :
    List (MerkleAuthPath Dig) → List (Tok Dig) →
    List (MerkleAuthPath Dig) × List (Tok Dig) × Bool
  | [], ts => ([], ts, true)
  | p :: ps, ts =>
    let r := p.marshal_in z ts
    if r.2.2 = false then (r.1 :: ps, r.2.1, false)
    else
      let rest := readPaths z ps r.2.1
      (r.1 :: rest.1, rest.2.1, rest.2.2)

/-- MerkleBundle::marshal_out: tree, treeSize, authLeaf, then each
retained path. -/
def MerkleBundle.marshal_out {Dig : Type} (b : MerkleBundle Dig) :
    List (Tok Dig) :=
  b.tree.marshal_out ++ [Tok.nat b.treeSize] ++ vecOut b.authLeaf ++
    (b.authPath.map MerkleAuthPath.marshal_out).flatten

/-- MerkleBundle::marshal_in: no reset of the receiver is performed; the
stream extraction into the size sets it to zero on failure (C++11
num_get), and the retained paths are read into a vector resized to the
parsed authLeaf length. -/
def MerkleBundle.marshal_in {Dig : Type} (z : Dig) (b : MerkleBundle Dig)
    (ts : List (Tok Dig)) : MerkleBundle Dig × List (Tok Dig) × Bool :=
  let rt := b.tree.marshal_in z ts
  let b1 : MerkleBundle Dig := { b with tree := rt.1 }
  if rt.2.2 = false then (b1, rt.2.1, false)
  else
    match readNat rt.2.1 with
    | none => ({ b1 with treeSize := 0 }, rt.2.1, false)
    | some (n, ts2) =>
      let b2 : MerkleBundle Dig := { b1 with treeSize := n }
      let ra := vecIn z b2.authLeaf ts2
      let b3 : MerkleBundle Dig := { b2 with authLeaf := ra.1 }
      if ra.2.2 = false then (b3, ra.2.1, false)
      else
        let rp := readPaths z (resizeWith MerkleAuthPath.fresh b3.authPath ra.1.length) ra.2.1
        ({ b3 with authPath := rp.1 }, rp.2.1, rp.2.2)

/-! ### Spec-side ideal model

These definitions follow the specification's description of the ideal
observer (sections 3, 4.1 and 8 of the spec), not the code; they are the
referents of the refinement claims. -/

/-- Modelled from the spec: the digest an ideal observer assigns to the
height-h subtree at horizontal index j of the current tree, where a
subtree holding no inserted leaf is represented by the canonical zero
digest (the convention realised by the accumulator's sibling
bookkeeping). -/
def subRoot {Dig : Type} (H : Dig → Dig → Dig) (z : Dig) (leaves : List Dig) :
    Nat → Nat → Dig
  | 0, j => leaves.getD j z
  | h + 1, j =>
    if leaves.length ≤ 2 ^ (h + 1) * j then z
    else H (subRoot H z leaves h (2 * j)) (subRoot H z leaves h (2 * j + 1))

/-- The bottom-up little-endian bit vector of a leaf position, one bit
per level. -/
def bitsD (D n : Nat) : List Bool :=
  (List.range D).map (fun i => decide (n / 2 ^ i % 2 = 1))

/-- The horizontal index of the sibling of position n's ancestor at the
given level. -/
def sibIndex (n i : Nat) : Nat :=
  if n / 2 ^ i % 2 = 1 then n / 2 ^ i - 1 else n / 2 ^ i + 1

/-- Modelled from the spec: the authentication path an ideal observer
would report for the leaf at position m of the live tree (depth D,
leaves the inserted prefix). -/
def idealPath {Dig : Type} (H : Dig → Dig → Dig) (z : Dig) (leaves : List Dig)
    (D m : Nat) : MerkleAuthPath Dig :=
  { depth := D
    rootPath := (List.range D).map (fun i => subRoot H z leaves (i + 1) (m / 2 ^ (i + 1)))
    siblings := (List.range D).map (fun i => subRoot H z leaves i (sibIndex m i))
    childBits := bitsD D m }

/-- Modelled from the spec (property P1): reconstruct walks the siblings
and child bits bottom-up, hashing at each level. -/
def reconstruct {Dig : Type} (H : Dig → Dig → Dig) :
    Dig → List (Dig × Bool) → Dig
  | d, [] => d
  | d, (s, b) :: rest => reconstruct H (if b then H s d else H d s) rest

/-- The little-endian value of a child-bit vector. -/
def bitsVal : List Bool → Nat
  | [] => 0
  | b :: r => (if b then 1 else 0) + 2 * bitsVal r

/-- The insertion indices of the kept leaves of an insertion sequence,
counting from the given start index. -/
def keptIdx {Dig : Type} : List (Dig × Bool) → Nat → List Nat
  | [], _ => []
  | p :: rest, i => (if p.2 then [i] else []) ++ keptIdx rest (i + 1)

/-- A fresh depth-D bundle after the given sequence of addLeaf calls. -/
def buildBundle {Dig : Type} (H : Dig → Dig → Dig) (z : Dig) (D : Nat)
    (inserts : List (Dig × Bool)) : MerkleBundle Dig :=
  inserts.foldl (fun b p => b.addLeaf H z p.1 p.2) (MerkleBundle.init z D)

/-- The number of trailing one bits of n among its D lowest bits. -/
def trailOnes : Nat → Nat → Nat
  | 0, _ => 0
  | D + 1, n => if n % 2 = 0 then 0 else trailOnes D (n / 2) + 1

/-- The digest travelling up the updatePath loop: digAt i is the value of
dig on entry to level i when the walk starts from the given leaf. -/
def digAt {Dig : Type} (H : Dig → Dig → Dig) (z : Dig) (sibs : List Dig)
    (cbits : List Bool) (leaf : Dig) : Nat → Dig
  | 0 => leaf
  | i + 1 =>
    let isR := cbits.getD i false
    let below := digAt H z sibs cbits leaf i
    H (ternary isR (sibs.getD i z) below) (ternary isR below (sibs.getD i z))

/-- The patches applied to one old path by the updatePath loop, fuel
levels starting at level i. -/
def patchSeq {Dig : Type} (H : Dig → Dig → Dig) (z : Dig) (sibs : List Dig)
    (cbits : List Bool) (leaf : Dig) (depth : Nat) :
    Nat → Nat → MerkleAuthPath Dig → Nat → MerkleAuthPath Dig
  | 0, _, p, _ => p
  | fuel + 1, i, p, ov =>
    patchSeq H z sibs cbits leaf depth fuel (i + 1)
      (patchOld depth i (digAt H z sibs cbits leaf (i + 1)) p ov) ov

/-- Well-formedness of a non-sentinel authentication path: positive depth
and all three vectors of that length (the class invariant). -/
def MerkleAuthPath.wff {Dig : Type} (ap : MerkleAuthPath Dig) : Prop :=
  1 ≤ ap.depth ∧ ap.rootPath.length = ap.depth ∧
    ap.siblings.length = ap.depth ∧ ap.childBits.length = ap.depth

/-- An operation of the accumulator/bundle API, for stating the latch
property of isFull. -/
inductive AccOp (Dig : Type) where
  | updPath : Dig → AccOp Dig
  | updSibs : Dig → AccOp Dig
  | leafSib : Dig → AccOp Dig
  | hashSib : Nat → AccOp Dig
  | addLf : Dig → Bool → AccOp Dig

/-- Interpretation of an AccOp on a bundle (operations on the inner
accumulator act through it). -/
def applyOp {Dig : Type} (H : Dig → Dig → Dig) (z : Dig)
    (b : MerkleBundle Dig) : AccOp Dig → MerkleBundle Dig
  | AccOp.updPath l =>
    { b with tree := { b.tree with authPath := b.tree.authPath.updatePath H z l } }
  | AccOp.updSibs l => { b with tree := b.tree.updateSiblings z l }
  | AccOp.leafSib l =>
    { b with tree := { b.tree with authPath := b.tree.authPath.leafSibling l } }
  | AccOp.hashSib k =>
    { b with tree := { b.tree with authPath := b.tree.authPath.hashSibling z k } }
  | AccOp.addLf l k => b.addLeaf H z l k

/-- A concrete injective-enough numeric hash used to exercise the
definitions on closed inputs. -/
def Hc : Nat → Nat → Nat := fun a b => 2 * a + 3 * b + 1

/-! ### List helper lemmas -/

lemma getD_nil {α : Type} (d : α) (i : Nat) : ([] : List α).getD i d = d := by
  cases i <;> rfl

lemma getD_zero_default {α : Type} (d : α) :
    ∀ (l : List α) (i : Nat), l.length ≤ i → l.getD i d = d := by
  intro l
  induction l with
  | nil => intro i _; exact getD_nil d i
  | cons a t ih =>
    intro i h
    cases i with
    | zero => simp at h
    | succ j => simpa using ih j (by simpa using h)

lemma getD_set_self {α : Type} (d v : α) :
    ∀ (l : List α) (i : Nat), i < l.length → (l.set i v).getD i d = v := by
  intro l
  induction l with
  | nil => intro i h; simp at h
  | cons a t ih =>
    intro i h
    cases i with
    | zero => rfl
    | succ j => simpa using ih j (by simpa using h)

lemma getD_set_ne {α : Type} (d v : α) :
    ∀ (l : List α) (i j : Nat), i ≠ j → (l.set i v).getD j d = l.getD j d := by
  intro l
  induction l with
  | nil => intro i j _; rfl
  | cons a t ih =>
    intro i j hij
    cases i with
    | zero =>
      cases j with
      | zero => exact absurd rfl hij
      | succ _ => rfl
    | succ i' =>
      cases j with
      | zero => rfl
      | succ j' => simpa using ih i' j' (by omega)

lemma getD_map_lt {α β : Type} (f : α → β) (d : β) (d' : α) :
    ∀ (l : List α) (i : Nat), i < l.length → (l.map f).getD i d = f (l.getD i d') := by
  intro l
  induction l with
  | nil => intro i h; simp at h
  | cons a t ih =>
    intro i h
    cases i with
    | zero => rfl
    | succ j => simpa using ih j (by simpa using h)

lemma getD_append_lt {α : Type} (d : α) :
    ∀ (l1 l2 : List α) (i : Nat), i < l1.length → (l1 ++ l2).getD i d = l1.getD i d := by
  intro l1
  induction l1 with
  | nil => intro l2 i h; simp at h
  | cons a t ih =>
    intro l2 i h
    cases i with
    | zero => rfl
    | succ j => simpa using ih l2 j (by simpa using h)

lemma getD_concat_len {α : Type} (d x : α) :
    ∀ (l : List α), (l ++ [x]).getD l.length d = x := by
  intro l
  induction l with
  | nil => rfl
  | cons a t ih => simpa using ih

lemma getD_range (D : Nat) : ∀ i, i < D → (List.range D).getD i 0 = i := by
  induction D with
  | zero => intro i h; omega
  | succ D ih =>
    intro i h
    rw [List.range_succ]
    rcases Nat.lt_or_ge i D with h2 | h2
    · rw [getD_append_lt 0 _ _ i (by simpa using h2)]
      exact ih i h2
    · have hiD : i = D := by omega
      subst hiD
      have h3 := getD_concat_len 0 i (List.range i)
      simpa using h3

lemma getD_range_map {β : Type} (f : Nat → β) (d : β) (D i : Nat) (h : i < D) :
    ((List.range D).map f).getD i d = f i := by
  rw [getD_map_lt f d 0 _ i (by simpa using h), getD_range D i h]

lemma eq_of_getD {α : Type} (d : α) :
    ∀ (l1 l2 : List α), l1.length = l2.length →
      (∀ i, i < l1.length → l1.getD i d = l2.getD i d) → l1 = l2 := by
  intro l1
  induction l1 with
  | nil =>
    intro l2 h _
    cases l2 with
    | nil => rfl
    | cons b t => simp at h
  | cons a t ih =>
    intro l2 h hel
    cases l2 with
    | nil => simp at h
    | cons b t2 =>
      have h0 : a = b := by simpa using hel 0 (by simp)
      have ht : t = t2 := by
        refine ih t2 (by simpa using h) ?_
        intro i hi
        simpa using hel (i + 1) (by simpa using Nat.succ_lt_succ hi)
      rw [h0, ht]

/-! ### Arithmetic helpers -/

lemma two_pow_pos' (i : Nat) : 0 < 2 ^ i :=
  pow_pos (by omega) i

lemma div_pow_succ (n i : Nat) : n / 2 ^ (i + 1) = n / 2 ^ i / 2 := by
  rw [Nat.div_div_eq_div_mul, pow_succ]

lemma agree_up {n m : Nat} (a : Nat) {b : Nat} (h : n / 2 ^ a = m / 2 ^ a)
    (hab : a ≤ b) : n / 2 ^ b = m / 2 ^ b := by
  have hb : b = a + (b - a) := by omega
  rw [hb, pow_add, ← Nat.div_div_eq_div_mul, ← Nat.div_div_eq_div_mul, h]

lemma region_le (n i : Nat) : 2 ^ i * (n / 2 ^ i) ≤ n := by
  rw [Nat.mul_comm]
  exact Nat.div_mul_le_self n (2 ^ i)

lemma lt_region_succ (n i : Nat) : n < 2 ^ i * (n / 2 ^ i + 1) := by
  have h1 := Nat.div_add_mod n (2 ^ i)
  have h2 : n % 2 ^ i < 2 ^ i := Nat.mod_lt n (two_pow_pos' i)
  rw [Nat.mul_succ]
  omega

lemma region_above {n i j : Nat} (h : n / 2 ^ i < j) : n < 2 ^ i * j := by
  have h2 := (Nat.div_lt_iff_lt_mul (two_pow_pos' i)).mp h
  calc n < j * 2 ^ i := h2
    _ = 2 ^ i * j := Nat.mul_comm _ _

lemma region_below {n i j : Nat} (h : j < n / 2 ^ i) : 2 ^ i * (j + 1) ≤ n := by
  have h2 := (Nat.le_div_iff_mul_le (two_pow_pos' i)).mp h
  calc 2 ^ i * (j + 1) = (j + 1) * 2 ^ i := Nat.mul_comm _ _
    _ ≤ n := h2

lemma sibIndex_ne (n i : Nat) : sibIndex n i ≠ n / 2 ^ i := by
  unfold sibIndex
  split <;> omega

lemma sibIndex_div2 (n i : Nat) : sibIndex n i / 2 = n / 2 ^ i / 2 := by
  unfold sibIndex
  generalize n / 2 ^ i = A
  split <;> omega

/-! ### subRoot lemmas -/

lemma subRoot_empty {Dig : Type} (H : Dig → Dig → Dig) (z : Dig) (leaves : List Dig) :
    ∀ h j, leaves.length ≤ 2 ^ h * j → subRoot H z leaves h j = z := by
  intro h
  cases h with
  | zero =>
    intro j hle
    show leaves.getD j z = z
    exact getD_zero_default z leaves j (by simpa using hle)
  | succ h =>
    intro j hle
    show (if leaves.length ≤ 2 ^ (h + 1) * j then z else _) = z
    rw [if_pos hle]

lemma subRoot_node {Dig : Type} (H : Dig → Dig → Dig) (z : Dig) (leaves : List Dig)
    (h j : Nat) (hlt : 2 ^ (h + 1) * j < leaves.length) :
    subRoot H z leaves (h + 1) j
      = H (subRoot H z leaves h (2 * j)) (subRoot H z leaves h (2 * j + 1)) := by
  show (if leaves.length ≤ 2 ^ (h + 1) * j then z else _) = _
  rw [if_neg (by omega)]

lemma subRoot_append_ne {Dig : Type} (H : Dig → Dig → Dig) (z L : Dig)
    (leaves : List Dig) :
    ∀ h j, leaves.length / 2 ^ h ≠ j →
      subRoot H z (leaves ++ [L]) h j = subRoot H z leaves h j := by
  intro h
  induction h with
  | zero =>
    intro j hne
    show (leaves ++ [L]).getD j z = leaves.getD j z
    rw [pow_zero, Nat.div_one] at hne
    rcases Nat.lt_or_ge j leaves.length with hj | hj
    · exact getD_append_lt z leaves [L] j hj
    · have hj2 : leaves.length < j := by omega
      rw [getD_zero_default z _ j (by simp; omega), getD_zero_default z leaves j (by omega)]
  | succ h ih =>
    intro j hne
    rcases Nat.lt_or_ge (leaves.length / 2 ^ (h + 1)) j with hlt | hge
    · have h1 : leaves.length < 2 ^ (h + 1) * j := region_above hlt
      rw [subRoot_empty _ _ _ _ j (by simp; omega), subRoot_empty _ _ _ _ j (by omega)]
    · have hgt : j < leaves.length / 2 ^ (h + 1) := by omega
      have hend : 2 ^ (h + 1) * (j + 1) ≤ leaves.length := region_below hgt
      have hstart : 2 ^ (h + 1) * j < leaves.length := by
        have hp := two_pow_pos' (h + 1)
        have hmul : 2 ^ (h + 1) * (j + 1) = 2 ^ (h + 1) * j + 2 ^ (h + 1) := Nat.mul_succ _ _
        omega
      have hA : 2 * j + 2 ≤ leaves.length / 2 ^ h := by
        have h2 := (Nat.le_div_iff_mul_le (two_pow_pos' h)).mpr
          (show (2 * j + 2) * 2 ^ h ≤ leaves.length by
            calc (2 * j + 2) * 2 ^ h = (j + 1) * 2 ^ (h + 1) := by ring
              _ = 2 ^ (h + 1) * (j + 1) := Nat.mul_comm _ _
              _ ≤ leaves.length := hend)
        exact h2
      rw [subRoot_node _ _ _ _ _ (by simp; omega), subRoot_node _ _ _ _ _ hstart]
      rw [ih (2 * j) (by omega), ih (2 * j + 1) (by omega)]

/-! ### Bit vector lemmas -/

lemma div_pow_succ' (n i : Nat) : n / 2 ^ (i + 1) = n / 2 / 2 ^ i := by
  rw [Nat.div_div_eq_div_mul, ← pow_succ']

lemma bitsD_succ_cons (D n : Nat) :
    bitsD (D + 1) n = decide (n % 2 = 1) :: bitsD D (n / 2) := by
  unfold bitsD
  rw [List.range_succ_eq_map, List.map_cons, List.map_map]
  congr 1
  · simp
  · have hf : ((fun i => decide (n / 2 ^ i % 2 = 1)) ∘ Nat.succ)
        = fun i => decide (n / 2 / 2 ^ i % 2 = 1) := by
      funext i
      show decide (n / 2 ^ (i + 1) % 2 = 1) = _
      rw [div_pow_succ']
    rw [hf]

lemma bitsD_succ_snoc (D n : Nat) :
    bitsD (D + 1) n = bitsD D n ++ [decide (n / 2 ^ D % 2 = 1)] := by
  unfold bitsD
  rw [List.range_succ, List.map_append]
  rfl

lemma bitsD_zero_nil (n : Nat) : bitsD 0 n = [] := rfl

lemma bitsVal_bitsD (D : Nat) : ∀ n, n < 2 ^ D → bitsVal (bitsD D n) = n := by
  induction D with
  | zero =>
    intro n h
    have hn : n = 0 := by simpa using h
    subst hn
    rfl
  | succ D ih =>
    intro n h
    have hn2 : n / 2 < 2 ^ D := by
      have hp : 2 ^ (D + 1) = 2 ^ D * 2 := pow_succ 2 D
      omega
    rw [bitsD_succ_cons]
    show (if decide (n % 2 = 1) then 1 else 0) + 2 * bitsVal (bitsD D (n / 2)) = n
    rw [ih (n / 2) hn2]
    by_cases h2 : n % 2 = 1
    · simp [h2]; omega
    · simp [h2]; omega

lemma matchMSB_snoc (a b : List Bool) (x y : Bool) :
    matchMSB (a ++ [x]) (b ++ [y]) = if x = y then matchMSB a b + 1 else 0 := by
  unfold matchMSB
  rw [List.reverse_append, List.reverse_append]
  show commonPrefixLen (x :: a.reverse) (y :: b.reverse) = _
  rfl

lemma overlap_spec : ∀ (D n m : Nat), n / 2 ^ D = m / 2 ^ D → n ≠ m →
    ∃ t, t < D ∧ matchMSB (bitsD D n) (bitsD D m) = D - 1 - t ∧
      n / 2 ^ (t + 1) = m / 2 ^ (t + 1) ∧ n / 2 ^ t ≠ m / 2 ^ t := by
  intro D
  induction D with
  | zero =>
    intro n m h hne
    rw [pow_zero, Nat.div_one, Nat.div_one] at h
    exact absurd h hne
  | succ D ih =>
    intro n m h hne
    by_cases hD : n / 2 ^ D = m / 2 ^ D
    · obtain ⟨t, ht, hmsb, h1, h2⟩ := ih n m hD hne
      refine ⟨t, by omega, ?_, h1, h2⟩
      rw [bitsD_succ_snoc, bitsD_succ_snoc, matchMSB_snoc, if_pos (by rw [hD]), hmsb]
      omega
    · refine ⟨D, by omega, ?_, h, hD⟩
      rw [bitsD_succ_snoc, bitsD_succ_snoc, matchMSB_snoc, if_neg ?_]
      · omega
      · have hAB2 : n / 2 ^ D / 2 = m / 2 ^ D / 2 := by
          rw [← div_pow_succ, ← div_pow_succ]
          exact h
        intro hdec
        generalize hA' : n / 2 ^ D = A at hAB2 hD hdec
        generalize hB' : m / 2 ^ D = B at hAB2 hD hdec
        have hpar : A % 2 = B % 2 := by
          by_cases hA : A % 2 = 1 <;> by_cases hB : B % 2 = 1 <;>
            simp [hA, hB] at hdec <;> omega
        exact hD (by omega)

lemma trailOnes_even (D n : Nat) (h : n % 2 = 0) : trailOnes (D + 1) n = 0 := by
  unfold trailOnes
  rw [if_pos h]

lemma trailOnes_odd (D n : Nat) (h : n % 2 = 1) :
    trailOnes (D + 1) n = trailOnes D (n / 2) + 1 := by
  show (if n % 2 = 0 then 0 else trailOnes D (n / 2) + 1) = _
  rw [if_neg (by omega)]

lemma incChildBits_bitsD : ∀ (D n : Nat), n < 2 ^ D →
    incChildBitsList (bitsD D n)
      = (bitsD D (n + 1), if n + 1 = 2 ^ D then none else some (trailOnes D n)) := by
  intro D
  induction D with
  | zero =>
    intro n h
    have hn : n = 0 := by simpa using h
    subst hn
    rfl
  | succ D ih =>
    intro n h
    have hp : 2 ^ (D + 1) = 2 ^ D * 2 := pow_succ 2 D
    have hn2 : n / 2 < 2 ^ D := by omega
    rw [bitsD_succ_cons]
    by_cases h2 : n % 2 = 1
    · have hb : decide (n % 2 = 1) = true := by simp [h2]
      rw [hb]
      show (false :: (incChildBitsList (bitsD D (n / 2))).1,
            (incChildBitsList (bitsD D (n / 2))).2.map (· + 1)) = _
      rw [ih (n / 2) hn2]
      have hsn : (n + 1) % 2 = 0 := by omega
      have hsd : (n + 1) / 2 = n / 2 + 1 := by omega
      have hcond : (n / 2 + 1 = 2 ^ D) ↔ (n + 1 = 2 ^ (D + 1)) := by omega
      rw [bitsD_succ_cons (n := n + 1), hsn, hsd]
      by_cases hfull : n / 2 + 1 = 2 ^ D
      · rw [if_pos hfull, if_pos (hcond.mp hfull)]
        rfl
      · rw [if_neg hfull, if_neg (fun hc => hfull (hcond.mpr hc)),
          trailOnes_odd D n h2]
        rfl
    · have hb : decide (n % 2 = 1) = false := by simp [h2]
      rw [hb]
      show (true :: bitsD D (n / 2), some 0) = _
      have hsn : (n + 1) % 2 = 1 := by omega
      have hsd : (n + 1) / 2 = n / 2 := by omega
      have hodd : n + 1 ≠ 2 ^ (D + 1) := by omega
      rw [bitsD_succ_cons (n := n + 1), hsn, hsd, if_neg hodd,
        trailOnes_even D n (by omega)]
      rfl

/-! ### Carry arithmetic -/

lemma two_pow_succ (k : Nat) : 2 ^ (k + 1) = 2 * 2 ^ k := by
  rw [pow_succ]; ring

lemma div_eq_iff_region (k i j : Nat) :
    k / 2 ^ i = j ↔ 2 ^ i * j ≤ k ∧ k < 2 ^ i * (j + 1) := by
  constructor
  · rintro rfl
    exact ⟨region_le k i, lt_region_succ k i⟩
  · rintro ⟨h1, h2⟩
    rcases Nat.lt_trichotomy (k / 2 ^ i) j with hlt | heq | hgt
    · have := region_above hlt
      omega
    · exact heq
    · have := region_below hgt
      omega

lemma pred_mul_mod (a M : Nat) (ha : 1 ≤ a) (hM : 1 ≤ M) :
    (a * M - 1) % a = a - 1 := by
  have h1 : a * M - 1 = (a - 1) + a * (M - 1) := by
    cases M with
    | zero => omega
    | succ M' =>
      have h2 : a * (M' + 1) = a * M' + a := Nat.mul_succ a M'
      simp only [Nat.add_sub_cancel]
      omega
  rw [h1, Nat.add_mul_mod_self_left]
  exact Nat.mod_eq_of_lt (by omega)

lemma trailOnes_spec : ∀ (D n : Nat), n < 2 ^ D → n + 1 ≠ 2 ^ D →
    trailOnes D n < D ∧ n % 2 ^ (trailOnes D n + 1) = 2 ^ (trailOnes D n) - 1 := by
  intro D
  induction D with
  | zero => intro n h h2; omega
  | succ D ih =>
    intro n h h2
    by_cases hpar : n % 2 = 0
    · rw [trailOnes_even D n hpar]
      exact ⟨by omega, by simpa using hpar⟩
    · have hodd : n % 2 = 1 := by omega
      rw [trailOnes_odd D n hodd]
      have hps : 2 ^ (D + 1) = 2 * 2 ^ D := two_pow_succ D
      have hn2 : n / 2 < 2 ^ D := by omega
      have hne : n / 2 + 1 ≠ 2 ^ D := by omega
      obtain ⟨hlt, hmod⟩ := ih (n / 2) hn2 hne
      refine ⟨by omega, ?_⟩
      set f := trailOnes D (n / 2) with hf
      have e1 : 2 ^ (f + 1 + 1) = 2 * 2 ^ (f + 1) := two_pow_succ (f + 1)
      have e2 : 2 ^ (f + 1) = 2 * 2 ^ f := two_pow_succ f
      have e3 : n % (2 * 2 ^ (f + 1)) = n % 2 + 2 * (n / 2 % 2 ^ (f + 1)) :=
        Nat.mod_mul
      have hp : 1 ≤ 2 ^ f := two_pow_pos' f
      rw [e1, e3, hmod, hodd]
      omega

lemma succ_facts (f n : Nat) (hmod : n % 2 ^ (f + 1) = 2 ^ f - 1) :
    ((n + 1) / 2 ^ (f + 1) = n / 2 ^ (f + 1)) ∧
    ((n + 1) / 2 ^ f = n / 2 ^ f + 1) ∧ ((n + 1) / 2 ^ f % 2 = 1) ∧
    (n / 2 ^ f % 2 = 0) ∧
    (∀ j, j < f → (n + 1) % 2 ^ (j + 1) = 0 ∧ (n + 1) / 2 ^ j % 2 = 0) := by
  have hPf : 1 ≤ 2 ^ f := two_pow_pos' f
  have hQ : 2 ^ (f + 1) = 2 * 2 ^ f := two_pow_succ f
  have hdmQ := Nat.div_add_mod n (2 ^ (f + 1))
  have hmodP : n % 2 ^ f = 2 ^ f - 1 := by
    have hdvd : 2 ^ f ∣ 2 ^ (f + 1) := pow_dvd_pow 2 (by omega)
    have hmm := Nat.mod_mod_of_dvd n hdvd
    rw [hmod] at hmm
    rw [← hmm]
    exact Nat.mod_eq_of_lt (by omega)
  have hdmP := Nat.div_add_mod n (2 ^ f)
  have hbitf : n / 2 ^ f % 2 = 0 := by
    have hform : n % (2 ^ f * 2) = n % 2 ^ f + 2 ^ f * (n / 2 ^ f % 2) :=
      Nat.mod_mul
    rw [← pow_succ, hmod, hmodP] at hform
    have hX : n / 2 ^ f % 2 = 0 ∨ n / 2 ^ f % 2 = 1 := by omega
    rcases hX with h0 | h1
    · exact h0
    · rw [h1, Nat.mul_one] at hform
      omega
  have hdivP : (n + 1) / 2 ^ f = n / 2 ^ f + 1 := by
    rw [div_eq_iff_region, Nat.mul_succ, Nat.mul_succ, Nat.mul_succ]
    omega
  refine ⟨?_, hdivP, ?_, hbitf, ?_⟩
  · rw [div_eq_iff_region, Nat.mul_succ]
    have := region_le n (f + 1)
    omega
  · rw [hdivP]
    omega
  · intro j hj
    have hdvd1 : 2 ^ (j + 1) ∣ 2 ^ (f + 1) := pow_dvd_pow 2 (by omega)
    have hmodj : n % 2 ^ (j + 1) = 2 ^ (j + 1) - 1 := by
      have hmm := Nat.mod_mod_of_dvd n hdvd1
      rw [hmod] at hmm
      rw [← hmm]
      have hsplit : 2 ^ f = 2 ^ (j + 1) * 2 ^ (f - (j + 1)) := by
        rw [← pow_add]
        congr 1
        omega
      rw [hsplit]
      exact pred_mul_mod (2 ^ (j + 1)) (2 ^ (f - (j + 1))) (two_pow_pos' _) (two_pow_pos' _)
    have hp1 : 1 ≤ 2 ^ (j + 1) := two_pow_pos' _
    have hdm := Nat.div_add_mod n (2 ^ (j + 1))
    have key : n + 1 = 2 ^ (j + 1) * (n / 2 ^ (j + 1) + 1) := by
      rw [Nat.mul_succ]
      omega
    have hzero : (n + 1) % 2 ^ (j + 1) = 0 := by
      rw [key]
      exact Nat.mul_mod_right _ _
    refine ⟨hzero, ?_⟩
    have heq2 : 2 ^ (j + 1) * (n / 2 ^ (j + 1) + 1) = 2 ^ j * (2 * (n / 2 ^ (j + 1) + 1)) := by
      rw [two_pow_succ]
      ring
    rw [key, heq2, Nat.mul_div_cancel_left _ (two_pow_pos' j)]
    omega

/-! ### updatePath loop lemmas -/

lemma patchOld_frame {Dig : Type} (depth i : Nat) (d : Dig) (p : MerkleAuthPath Dig)
    (ov : Nat) :
    (patchOld depth i d p ov).depth = p.depth ∧
    (patchOld depth i d p ov).childBits = p.childBits ∧
    (patchOld depth i d p ov).rootPath.length = p.rootPath.length ∧
    (patchOld depth i d p ov).siblings.length = p.siblings.length := by
  unfold patchOld
  split
  · exact ⟨rfl, rfl, by simp, rfl⟩
  · split
    · exact ⟨rfl, rfl, rfl, by simp⟩
    · exact ⟨rfl, rfl, rfl, rfl⟩

lemma patchSeq_frame {Dig : Type} (H : Dig → Dig → Dig) (z : Dig) (sibs : List Dig)
    (cbits : List Bool) (leaf : Dig) (depth : Nat) :
    ∀ (fuel i : Nat) (p : MerkleAuthPath Dig) (ov : Nat),
      (patchSeq H z sibs cbits leaf depth fuel i p ov).depth = p.depth ∧
      (patchSeq H z sibs cbits leaf depth fuel i p ov).childBits = p.childBits ∧
      (patchSeq H z sibs cbits leaf depth fuel i p ov).rootPath.length = p.rootPath.length ∧
      (patchSeq H z sibs cbits leaf depth fuel i p ov).siblings.length = p.siblings.length := by
  intro fuel
  induction fuel with
  | zero => intro i p ov; exact ⟨rfl, rfl, rfl, rfl⟩
  | succ fuel ih =>
    intro i p ov
    have h1 := ih (i + 1) (patchOld depth i (digAt H z sibs cbits leaf (i + 1)) p ov) ov
    have h2 := patchOld_frame depth i (digAt H z sibs cbits leaf (i + 1)) p ov
    exact ⟨h1.1.trans h2.1, h1.2.1.trans h2.2.1, h1.2.2.1.trans h2.2.2.1,
      h1.2.2.2.trans h2.2.2.2⟩

lemma updLoop_len {Dig : Type} (H : Dig → Dig → Dig) (z : Dig) (depth : Nat)
    (sibs : List Dig) (cbits : List Bool) :
    ∀ (fuel i : Nat) (dig : Dig) (rp : List Dig) (olds : List (MerkleAuthPath Dig × Nat)),
      (updLoop H z depth sibs cbits fuel i dig rp olds).2.1.length = rp.length := by
  intro fuel
  induction fuel with
  | zero => intro i dig rp olds; rfl
  | succ fuel ih =>
    intro i dig rp olds
    show (updLoop H z depth sibs cbits fuel (i + 1) _ (rp.set i _) _).2.1.length = _
    rw [ih]
    simp

lemma updLoop_rootPath {Dig : Type} (H : Dig → Dig → Dig) (z : Dig) (depth : Nat)
    (sibs : List Dig) (cbits : List Bool) (leaf : Dig) :
    ∀ (fuel i : Nat) (rp : List Dig) (olds : List (MerkleAuthPath Dig × Nat)) (dz : Dig),
      i + fuel ≤ rp.length →
      ∀ j, ((updLoop H z depth sibs cbits fuel i
            (digAt H z sibs cbits leaf i) rp olds).2.1).getD j dz =
        if i ≤ j ∧ j < i + fuel then digAt H z sibs cbits leaf (j + 1) else rp.getD j dz := by
  intro fuel
  induction fuel with
  | zero =>
    intro i rp olds dz hlen j
    rw [if_neg (by omega)]
    rfl
  | succ fuel ih =>
    intro i rp olds dz hlen j
    have hstep : updLoop H z depth sibs cbits (fuel + 1) i
          (digAt H z sibs cbits leaf i) rp olds
        = updLoop H z depth sibs cbits fuel (i + 1)
            (digAt H z sibs cbits leaf (i + 1))
            (rp.set i (digAt H z sibs cbits leaf (i + 1)))
            (olds.map (fun q =>
              (patchOld depth i (digAt H z sibs cbits leaf (i + 1)) q.1 q.2, q.2))) := rfl
    rw [hstep, ih (i + 1) _ _ dz (by simp; omega)]
    by_cases hj : i + 1 ≤ j ∧ j < i + 1 + fuel
    · rw [if_pos hj, if_pos (by omega)]
    · rw [if_neg hj]
      by_cases hji : j = i
      · subst hji
        rw [getD_set_self dz _ rp j (by omega), if_pos (by omega)]
      · rw [getD_set_ne dz _ rp i j (by omega), if_neg (by omega)]

lemma updLoop_olds {Dig : Type} (H : Dig → Dig → Dig) (z : Dig) (depth : Nat)
    (sibs : List Dig) (cbits : List Bool) (leaf : Dig) :
    ∀ (fuel i : Nat) (rp : List Dig) (olds : List (MerkleAuthPath Dig × Nat)),
      (updLoop H z depth sibs cbits fuel i
          (digAt H z sibs cbits leaf i) rp olds).2.2
        = olds.map (fun q => (patchSeq H z sibs cbits leaf depth fuel i q.1 q.2, q.2)) := by
  intro fuel
  induction fuel with
  | zero =>
    intro i rp olds
    show olds = olds.map (fun q => q)
    simp
  | succ fuel ih =>
    intro i rp olds
    have hstep : updLoop H z depth sibs cbits (fuel + 1) i
          (digAt H z sibs cbits leaf i) rp olds
        = updLoop H z depth sibs cbits fuel (i + 1)
            (digAt H z sibs cbits leaf (i + 1))
            (rp.set i (digAt H z sibs cbits leaf (i + 1)))
            (olds.map (fun q =>
              (patchOld depth i (digAt H z sibs cbits leaf (i + 1)) q.1 q.2, q.2))) := rfl
    rw [hstep, ih (i + 1) _ _, List.map_map]
    rfl

lemma digAt_subRoot {Dig : Type} (H : Dig → Dig → Dig) (z : Dig) (leaves : List Dig)
    (L : Dig) (D n : Nat) (hn : leaves.length = n)
    (sibs : List Dig) (cbits : List Bool)
    (hcb : ∀ i, i < D → cbits.getD i false = decide (n / 2 ^ i % 2 = 1))
    (hsb : ∀ i, i < D → sibs.getD i z = subRoot H z leaves i (sibIndex n i)) :
    ∀ i, i ≤ D → digAt H z sibs cbits L i
      = subRoot H z (leaves ++ [L]) i (n / 2 ^ i) := by
  intro i
  induction i with
  | zero =>
    intro _
    show L = subRoot H z (leaves ++ [L]) 0 (n / 2 ^ 0)
    rw [pow_zero, Nat.div_one]
    show L = (leaves ++ [L]).getD n z
    rw [← hn]
    exact (getD_concat_len z L leaves).symm
  | succ i ih =>
    intro hiD
    have hi : i < D := by omega
    have hrec := ih (by omega)
    show H (ternary (cbits.getD i false) (sibs.getD i z) (digAt H z sibs cbits L i))
        (ternary (cbits.getD i false) (digAt H z sibs cbits L i) (sibs.getD i z)) = _
    rw [hcb i hi, hsb i hi, hrec]
    have hsibne : leaves.length / 2 ^ i ≠ sibIndex n i := by
      rw [hn]
      exact fun hc => sibIndex_ne n i hc.symm
    rw [← subRoot_append_ne H z L leaves i (sibIndex n i) hsibne]
    have hnonempty : 2 ^ (i + 1) * (n / 2 ^ (i + 1)) < (leaves ++ [L]).length := by
      have hr := region_le n (i + 1)
      simp [hn]
      omega
    rw [subRoot_node H z (leaves ++ [L]) i (n / 2 ^ (i + 1)) hnonempty]
    have hd2 : n / 2 ^ (i + 1) = n / 2 ^ i / 2 := div_pow_succ n i
    by_cases hbit : n / 2 ^ i % 2 = 1
    · have hc1 : 2 * (n / 2 ^ (i + 1)) = sibIndex n i := by
        unfold sibIndex
        rw [if_pos hbit, hd2]
        generalize n / 2 ^ i = A at *
        omega
      have hc2 : 2 * (n / 2 ^ (i + 1)) + 1 = n / 2 ^ i := by
        rw [hd2]
        generalize n / 2 ^ i = A at *
        omega
      rw [hc2, hc1]
      simp [ternary, hbit]
    · have hc1 : 2 * (n / 2 ^ (i + 1)) = n / 2 ^ i := by
        rw [hd2]
        generalize n / 2 ^ i = A at *
        omega
      have hc2 : 2 * (n / 2 ^ (i + 1)) + 1 = sibIndex n i := by
        unfold sibIndex
        rw [if_neg hbit, hd2]
        generalize n / 2 ^ i = A at *
        omega
      rw [hc2, hc1]
      simp [ternary, hbit]

/-! ### The snapshot patching lemma -/

lemma patchSeq_ideal {Dig : Type} (H : Dig → Dig → Dig) (z : Dig) (leaves : List Dig)
    (L : Dig) (D n m t : Nat)
    (ht : t < D) (ha1 : n / 2 ^ (t + 1) = m / 2 ^ (t + 1)) (ha0 : n / 2 ^ t ≠ m / 2 ^ t)
    (sibs : List Dig) (cbits : List Bool)
    (hdig : ∀ i, i < D → digAt H z sibs cbits L (i + 1)
      = subRoot H z (leaves ++ [L]) (i + 1) (n / 2 ^ (i + 1))) :
    ∀ (fuel i : Nat), fuel + i = D →
    ∀ (p : MerkleAuthPath Dig),
      p.depth = D → p.childBits = bitsD D m →
      p.rootPath.length = D → p.siblings.length = D →
      (∀ j, j < D → p.rootPath.getD j z =
        if j < i ∧ n / 2 ^ (j + 1) = m / 2 ^ (j + 1)
        then subRoot H z (leaves ++ [L]) (j + 1) (m / 2 ^ (j + 1))
        else subRoot H z leaves (j + 1) (m / 2 ^ (j + 1))) →
      (∀ j, j < D → p.siblings.getD j z =
        if j ≤ i ∧ 1 ≤ j ∧ n / 2 ^ j = sibIndex m j
        then subRoot H z (leaves ++ [L]) j (sibIndex m j)
        else subRoot H z leaves j (sibIndex m j)) →
      ((patchSeq H z sibs cbits L D fuel i p (D - 1 - t)).depth = D ∧
       (patchSeq H z sibs cbits L D fuel i p (D - 1 - t)).childBits = bitsD D m ∧
       (patchSeq H z sibs cbits L D fuel i p (D - 1 - t)).rootPath.length = D ∧
       (patchSeq H z sibs cbits L D fuel i p (D - 1 - t)).siblings.length = D ∧
       (∀ j, j < D → (patchSeq H z sibs cbits L D fuel i p (D - 1 - t)).rootPath.getD j z =
         if n / 2 ^ (j + 1) = m / 2 ^ (j + 1)
         then subRoot H z (leaves ++ [L]) (j + 1) (m / 2 ^ (j + 1))
         else subRoot H z leaves (j + 1) (m / 2 ^ (j + 1))) ∧
       (∀ j, j < D → (patchSeq H z sibs cbits L D fuel i p (D - 1 - t)).siblings.getD j z =
         if 1 ≤ j ∧ n / 2 ^ j = sibIndex m j
         then subRoot H z (leaves ++ [L]) j (sibIndex m j)
         else subRoot H z leaves j (sibIndex m j))) := by
  have hchar : ∀ j, n / 2 ^ j = sibIndex m j ↔ j = t := by
    intro j
    constructor
    · intro hsib
      have hne : n / 2 ^ j ≠ m / 2 ^ j := by
        rw [hsib]
        exact sibIndex_ne m j
      have hagj : n / 2 ^ (j + 1) = m / 2 ^ (j + 1) := by
        rw [div_pow_succ, div_pow_succ, hsib]
        exact sibIndex_div2 m j
      rcases Nat.lt_trichotomy j t with h | h | h
      · exact absurd (agree_up (j + 1) hagj (by omega)) ha0
      · exact h
      · exact absurd (agree_up (t + 1) ha1 (by omega)) hne
    · intro hjt
      subst hjt
      have h2 : n / 2 ^ j / 2 = m / 2 ^ j / 2 := by
        rw [← div_pow_succ, ← div_pow_succ]
        exact ha1
      have h0 := ha0
      unfold sibIndex
      generalize hA : n / 2 ^ j = A at *
      generalize hB : m / 2 ^ j = B at *
      split
      · omega
      · omega
  have hkey1 : ∀ i, i < D →
      (((D : Int) - 1 - (i : Int) ≤ ((D - 1 - t : Nat) : Int)) ↔
        n / 2 ^ (i + 1) = m / 2 ^ (i + 1)) := by
    intro i hi
    constructor
    · intro hle
      exact agree_up (t + 1) ha1 (by omega)
    · intro hag
      have hti : t ≤ i := by
        by_contra hc
        push_neg at hc
        exact ha0 (agree_up (i + 1) hag (by omega))
      omega
  have hkey2 : ∀ i, i < D →
      (((D : Int) - 1 - (i : Int) = ((D - 1 - t : Nat) : Int) + 1) ↔ i + 1 = t) := by
    intro i hi
    omega
  intro fuel
  induction fuel with
  | zero =>
    intro i hfi p hd hcb hlr hls hrp hsb
    have hiD : i = D := by omega
    subst hiD
    refine ⟨hd, hcb, hlr, hls, ?_, ?_⟩
    · intro j hj
      have hh := hrp j hj
      show p.rootPath.getD j z = _
      rw [hh]
      by_cases hag : n / 2 ^ (j + 1) = m / 2 ^ (j + 1)
      · rw [if_pos ⟨hj, hag⟩, if_pos hag]
      · rw [if_neg (fun hc => hag hc.2), if_neg hag]
    · intro j hj
      have hh := hsb j hj
      show p.siblings.getD j z = _
      rw [hh]
      by_cases hc : 1 ≤ j ∧ n / 2 ^ j = sibIndex m j
      · rw [if_pos ⟨by omega, hc.1, hc.2⟩, if_pos hc]
      · rw [if_neg (fun hh2 => hc ⟨hh2.2.1, hh2.2.2⟩), if_neg hc]
  | succ fuel ih =>
    intro i hfi p hd hcb hlr hls hrp hsb
    have hi : i < D := by omega
    by_cases hA : n / 2 ^ (i + 1) = m / 2 ^ (i + 1)
    · have hcond : ((D : Int) - 1 - (i : Int) ≤ ((D - 1 - t : Nat) : Int)) :=
        (hkey1 i hi).mpr hA
      have hp' : patchOld D i (digAt H z sibs cbits L (i + 1)) p (D - 1 - t)
          = { p with rootPath := p.rootPath.set i (digAt H z sibs cbits L (i + 1)) } := by
        unfold patchOld
        rw [if_pos hcond]
      have h1 : (patchOld D i (digAt H z sibs cbits L (i + 1)) p (D - 1 - t)).depth = D := by
        rw [hp']; exact hd
      have h2 : (patchOld D i (digAt H z sibs cbits L (i + 1)) p (D - 1 - t)).childBits
          = bitsD D m := by
        rw [hp']; exact hcb
      have h3 : (patchOld D i (digAt H z sibs cbits L (i + 1)) p (D - 1 - t)).rootPath.length
          = D := by
        rw [hp']; simpa using hlr
      have h4 : (patchOld D i (digAt H z sibs cbits L (i + 1)) p (D - 1 - t)).siblings.length
          = D := by
        rw [hp']; exact hls
      have h5 : ∀ j, j < D →
          (patchOld D i (digAt H z sibs cbits L (i + 1)) p (D - 1 - t)).rootPath.getD j z =
          if j < i + 1 ∧ n / 2 ^ (j + 1) = m / 2 ^ (j + 1)
          then subRoot H z (leaves ++ [L]) (j + 1) (m / 2 ^ (j + 1))
          else subRoot H z leaves (j + 1) (m / 2 ^ (j + 1)) := by
        intro j hj
        rw [hp']
        show (p.rootPath.set i (digAt H z sibs cbits L (i + 1))).getD j z = _
        by_cases hji : j = i
        · subst hji
          rw [getD_set_self z _ p.rootPath j (by omega), if_pos ⟨by omega, hA⟩,
            hdig j (by omega), hA]
        · rw [getD_set_ne z _ p.rootPath i j (fun hc => hji hc.symm), hrp j hj]
          by_cases hcnd : j < i ∧ n / 2 ^ (j + 1) = m / 2 ^ (j + 1)
          · rw [if_pos hcnd, if_pos ⟨by omega, hcnd.2⟩]
          · rw [if_neg hcnd, if_neg (fun hc => hcnd ⟨by omega, hc.2⟩)]
      have h6 : ∀ j, j < D →
          (patchOld D i (digAt H z sibs cbits L (i + 1)) p (D - 1 - t)).siblings.getD j z =
          if j ≤ i + 1 ∧ 1 ≤ j ∧ n / 2 ^ j = sibIndex m j
          then subRoot H z (leaves ++ [L]) j (sibIndex m j)
          else subRoot H z leaves j (sibIndex m j) := by
        intro j hj
        rw [hp']
        show p.siblings.getD j z = _
        rw [hsb j hj]
        by_cases hc : j ≤ i ∧ 1 ≤ j ∧ n / 2 ^ j = sibIndex m j
        · rw [if_pos hc, if_pos ⟨by omega, hc.2⟩]
        · rw [if_neg hc, if_neg ?_]
          rintro ⟨c1, c2, c3⟩
          have hjt : j = t := (hchar j).mp c3
          by_cases hji2 : j ≤ i
          · exact hc ⟨hji2, c2, c3⟩
          · have hteq : t = i + 1 := by omega
            exact ha0 (by rw [hteq]; exact hA)
      exact ih (i + 1) (by omega) _ h1 h2 h3 h4 h5 h6
    · have hcond1 : ¬((D : Int) - 1 - (i : Int) ≤ ((D - 1 - t : Nat) : Int)) :=
        fun hc => hA ((hkey1 i hi).mp hc)
      by_cases hB : i + 1 = t
      · have hcond2 : ((D : Int) - 1 - (i : Int) = ((D - 1 - t : Nat) : Int) + 1) :=
          (hkey2 i hi).mpr hB
        have hp' : patchOld D i (digAt H z sibs cbits L (i + 1)) p (D - 1 - t)
            = { p with siblings := p.siblings.set (i + 1) (digAt H z sibs cbits L (i + 1)) } := by
          unfold patchOld
          rw [if_neg hcond1, if_pos hcond2]
        have h1 : (patchOld D i (digAt H z sibs cbits L (i + 1)) p (D - 1 - t)).depth = D := by
          rw [hp']; exact hd
        have h2 : (patchOld D i (digAt H z sibs cbits L (i + 1)) p (D - 1 - t)).childBits
            = bitsD D m := by
          rw [hp']; exact hcb
        have h3 : (patchOld D i (digAt H z sibs cbits L (i + 1)) p (D - 1 - t)).rootPath.length
            = D := by
          rw [hp']; exact hlr
        have h4 : (patchOld D i (digAt H z sibs cbits L (i + 1)) p (D - 1 - t)).siblings.length
            = D := by
          rw [hp']; simpa using hls
        have h5 : ∀ j, j < D →
            (patchOld D i (digAt H z sibs cbits L (i + 1)) p (D - 1 - t)).rootPath.getD j z =
            if j < i + 1 ∧ n / 2 ^ (j + 1) = m / 2 ^ (j + 1)
            then subRoot H z (leaves ++ [L]) (j + 1) (m / 2 ^ (j + 1))
            else subRoot H z leaves (j + 1) (m / 2 ^ (j + 1)) := by
          intro j hj
          rw [hp']
          show p.rootPath.getD j z = _
          rw [hrp j hj]
          by_cases hcnd : j < i ∧ n / 2 ^ (j + 1) = m / 2 ^ (j + 1)
          · rw [if_pos hcnd, if_pos ⟨by omega, hcnd.2⟩]
          · rw [if_neg hcnd, if_neg ?_]
            rintro ⟨c1, c2⟩
            by_cases hji : j = i
            · subst hji
              exact hA c2
            · exact hcnd ⟨by omega, c2⟩
        have h6 : ∀ j, j < D →
            (patchOld D i (digAt H z sibs cbits L (i + 1)) p (D - 1 - t)).siblings.getD j z =
            if j ≤ i + 1 ∧ 1 ≤ j ∧ n / 2 ^ j = sibIndex m j
            then subRoot H z (leaves ++ [L]) j (sibIndex m j)
            else subRoot H z leaves j (sibIndex m j) := by
          intro j hj
          rw [hp']
          show (p.siblings.set (i + 1) (digAt H z sibs cbits L (i + 1))).getD j z = _
          by_cases hji : j = i + 1
          · subst hji
            have hs : n / 2 ^ (i + 1) = sibIndex m (i + 1) := (hchar (i + 1)).mpr hB
            rw [getD_set_self z _ p.siblings (i + 1) (by omega),
              if_pos ⟨by omega, by omega, hs⟩, hdig i hi]
            rw [hs]
          · rw [getD_set_ne z _ p.siblings (i + 1) j (fun hc => hji hc.symm), hsb j hj]
            by_cases hc : j ≤ i ∧ 1 ≤ j ∧ n / 2 ^ j = sibIndex m j
            · rw [if_pos hc, if_pos ⟨by omega, hc.2⟩]
            · rw [if_neg hc, if_neg ?_]
              rintro ⟨c1, c2, c3⟩
              exact hc ⟨by omega, c2, c3⟩
        exact ih (i + 1) (by omega) _ h1 h2 h3 h4 h5 h6
      · have hcond2 : ¬((D : Int) - 1 - (i : Int) = ((D - 1 - t : Nat) : Int) + 1) :=
          fun hc => hB ((hkey2 i hi).mp hc)
        have hp' : patchOld D i (digAt H z sibs cbits L (i + 1)) p (D - 1 - t) = p := by
          unfold patchOld
          rw [if_neg hcond1, if_neg hcond2]
        have h5 : ∀ j, j < D →
            (patchOld D i (digAt H z sibs cbits L (i + 1)) p (D - 1 - t)).rootPath.getD j z =
            if j < i + 1 ∧ n / 2 ^ (j + 1) = m / 2 ^ (j + 1)
            then subRoot H z (leaves ++ [L]) (j + 1) (m / 2 ^ (j + 1))
            else subRoot H z leaves (j + 1) (m / 2 ^ (j + 1)) := by
          intro j hj
          rw [hp', hrp j hj]
          by_cases hcnd : j < i ∧ n / 2 ^ (j + 1) = m / 2 ^ (j + 1)
          · rw [if_pos hcnd, if_pos ⟨by omega, hcnd.2⟩]
          · rw [if_neg hcnd, if_neg ?_]
            rintro ⟨c1, c2⟩
            by_cases hji : j = i
            · subst hji
              exact hA c2
            · exact hcnd ⟨by omega, c2⟩
        have h6 : ∀ j, j < D →
            (patchOld D i (digAt H z sibs cbits L (i + 1)) p (D - 1 - t)).siblings.getD j z =
            if j ≤ i + 1 ∧ 1 ≤ j ∧ n / 2 ^ j = sibIndex m j
            then subRoot H z (leaves ++ [L]) j (sibIndex m j)
            else subRoot H z leaves j (sibIndex m j) := by
          intro j hj
          rw [hp', hsb j hj]
          by_cases hc : j ≤ i ∧ 1 ≤ j ∧ n / 2 ^ j = sibIndex m j
          · rw [if_pos hc, if_pos ⟨by omega, hc.2⟩]
          · rw [if_neg hc, if_neg ?_]
            rintro ⟨c1, c2, c3⟩
            have hjt : j = t := (hchar j).mp c3
            by_cases hji2 : j ≤ i
            · exact hc ⟨hji2, c2, c3⟩
            · exact hB (by omega)
        exact ih (i + 1) (by omega) _ (by rw [hp']; exact hd) (by rw [hp']; exact hcb)
          (by rw [hp']; exact hlr) (by rw [hp']; exact hls) h5 h6

/-! ### Assembling updatePath on the ideal state -/

lemma apFieldsEq {Dig : Type} (p q : MerkleAuthPath Dig)
    (h1 : p.depth = q.depth) (h2 : p.rootPath = q.rootPath)
    (h3 : p.siblings = q.siblings) (h4 : p.childBits = q.childBits) : p = q := by
  cases p
  cases q
  simp_all

lemma sib_char (n m t : Nat) (ha1 : n / 2 ^ (t + 1) = m / 2 ^ (t + 1))
    (ha0 : n / 2 ^ t ≠ m / 2 ^ t) (j : Nat) :
    n / 2 ^ j = sibIndex m j ↔ j = t := by
  constructor
  · intro hsib
    have hne : n / 2 ^ j ≠ m / 2 ^ j := by
      rw [hsib]
      exact sibIndex_ne m j
    have hagj : n / 2 ^ (j + 1) = m / 2 ^ (j + 1) := by
      rw [div_pow_succ, div_pow_succ, hsib]
      exact sibIndex_div2 m j
    rcases Nat.lt_trichotomy j t with h | h | h
    · exact absurd (agree_up (j + 1) hagj (by omega)) ha0
    · exact h
    · exact absurd (agree_up (t + 1) ha1 (by omega)) hne
  · intro hjt
    subst hjt
    have h2 : n / 2 ^ j / 2 = m / 2 ^ j / 2 := by
      rw [← div_pow_succ, ← div_pow_succ]
      exact ha1
    have h0 := ha0
    unfold sibIndex
    generalize hA : n / 2 ^ j = A at *
    generalize hB : m / 2 ^ j = B at *
    split
    · omega
    · omega

lemma finalPatch_ideal {Dig : Type} (H : Dig → Dig → Dig) (z : Dig) (leaves : List Dig)
    (L : Dig) (D n m : Nat) (hn : leaves.length = n) (hnD : n < 2 ^ D) (hmn : m < n)
    (hdig' : ∀ i, i < D →
      digAt H z ((List.range D).map (fun i => subRoot H z leaves i (sibIndex n i)))
        (bitsD D n) L (i + 1)
        = subRoot H z (leaves ++ [L]) (i + 1) (n / 2 ^ (i + 1))) :
    (fun q => if (D : Int) - 1 = ((q.2 : Nat) : Int)
        then { q.1 with siblings := q.1.siblings.set 0 L } else q.1)
      ((fun q => (patchSeq H z
          ((List.range D).map (fun i => subRoot H z leaves i (sibIndex n i))) (bitsD D n)
          L D D 0 q.1 q.2, q.2))
        ((fun p => (p, matchMSB (bitsD D n) p.childBits)) (idealPath H z leaves D m)))
    = idealPath H z (leaves ++ [L]) D m := by
  have hmD : m < 2 ^ D := by omega
  obtain ⟨t, ht, hov, ha1, ha0⟩ := overlap_spec D n m
    (by rw [Nat.div_eq_of_lt hnD, Nat.div_eq_of_lt hmD]) (by omega)
  have hstart := patchSeq_ideal H z leaves L D n m t ht ha1 ha0
    ((List.range D).map (fun i => subRoot H z leaves i (sibIndex n i))) (bitsD D n) hdig'
    D 0 (by omega) (idealPath H z leaves D m) rfl rfl (by simp [idealPath]) (by simp [idealPath])
    (by
      intro j hj
      show ((List.range D).map
        (fun i => subRoot H z leaves (i + 1) (m / 2 ^ (i + 1)))).getD j z = _
      rw [getD_range_map _ _ _ _ hj, if_neg (by omega)])
    (by
      intro j hj
      show ((List.range D).map
        (fun i => subRoot H z leaves i (sibIndex m i))).getD j z = _
      rw [getD_range_map _ _ _ _ hj, if_neg (by omega)])
  obtain ⟨hq1, hq2, hq3, hq4, hq5, hq6⟩ := hstart
  have c2 : (patchSeq H z
      ((List.range D).map (fun i => subRoot H z leaves i (sibIndex n i))) (bitsD D n)
      L D D 0 (idealPath H z leaves D m) (D - 1 - t)).rootPath
      = (List.range D).map (fun i => subRoot H z (leaves ++ [L]) (i + 1) (m / 2 ^ (i + 1))) := by
    apply eq_of_getD z
    · rw [hq3]
      simp
    · intro j hj
      rw [hq3] at hj
      rw [hq5 j hj, getD_range_map _ _ _ _ hj]
      by_cases hag : n / 2 ^ (j + 1) = m / 2 ^ (j + 1)
      · rw [if_pos hag]
      · rw [if_neg hag, subRoot_append_ne H z L leaves (j + 1) (m / 2 ^ (j + 1))
          (by rw [hn]; exact hag)]
  show (if (D : Int) - 1
      = ((matchMSB (bitsD D n) (idealPath H z leaves D m).childBits : Nat) : Int)
      then MerkleAuthPath.mk
        (patchSeq H z
          ((List.range D).map (fun i => subRoot H z leaves i (sibIndex n i))) (bitsD D n)
          L D D 0 (idealPath H z leaves D m)
          (matchMSB (bitsD D n) (idealPath H z leaves D m).childBits)).depth
        (patchSeq H z
          ((List.range D).map (fun i => subRoot H z leaves i (sibIndex n i))) (bitsD D n)
          L D D 0 (idealPath H z leaves D m)
          (matchMSB (bitsD D n) (idealPath H z leaves D m).childBits)).rootPath
        ((patchSeq H z
          ((List.range D).map (fun i => subRoot H z leaves i (sibIndex n i))) (bitsD D n)
          L D D 0 (idealPath H z leaves D m)
          (matchMSB (bitsD D n) (idealPath H z leaves D m).childBits)).siblings.set 0 L)
        (patchSeq H z
          ((List.range D).map (fun i => subRoot H z leaves i (sibIndex n i))) (bitsD D n)
          L D D 0 (idealPath H z leaves D m)
          (matchMSB (bitsD D n) (idealPath H z leaves D m).childBits)).childBits
      else patchSeq H z
        ((List.range D).map (fun i => subRoot H z leaves i (sibIndex n i))) (bitsD D n)
        L D D 0 (idealPath H z leaves D m)
        (matchMSB (bitsD D n) (idealPath H z leaves D m).childBits))
    = idealPath H z (leaves ++ [L]) D m
  have hovd : matchMSB (bitsD D n) (idealPath H z leaves D m).childBits = D - 1 - t := hov
  rw [hovd]
  by_cases ht0 : t = 0
  · rw [if_pos (by omega)]
    have c3 : (patchSeq H z
        ((List.range D).map (fun i => subRoot H z leaves i (sibIndex n i))) (bitsD D n)
        L D D 0 (idealPath H z leaves D m) (D - 1 - t)).siblings.set 0 L
        = (List.range D).map (fun i => subRoot H z (leaves ++ [L]) i (sibIndex m i)) := by
      apply eq_of_getD z
      · simp [hq4]
      · intro j hj
        simp only [List.length_set] at hj
        rw [hq4] at hj
        by_cases hj0 : j = 0
        · subst hj0
          rw [getD_set_self z L _ 0 (by rw [hq4]; omega), getD_range_map _ _ _ _ hj]
          have hs0 : n / 2 ^ 0 = sibIndex m 0 := (sib_char n m t ha1 ha0 0).mpr ht0.symm
          rw [pow_zero, Nat.div_one] at hs0
          show L = subRoot H z (leaves ++ [L]) 0 (sibIndex m 0)
          rw [← hs0]
          show L = (leaves ++ [L]).getD n z
          rw [← hn]
          exact (getD_concat_len z L leaves).symm
        · rw [getD_set_ne z L _ 0 j (fun hc => hj0 hc.symm), hq6 j hj,
            getD_range_map _ _ _ _ hj]
          have hnot : ¬(n / 2 ^ j = sibIndex m j) := by
            rw [sib_char n m t ha1 ha0 j]
            omega
          rw [if_neg (fun hc => hnot hc.2),
            subRoot_append_ne H z L leaves j (sibIndex m j) (by rw [hn]; exact hnot)]
    exact apFieldsEq _ _ hq1 c2 c3 hq2
  · rw [if_neg (by omega)]
    have c3 : (patchSeq H z
        ((List.range D).map (fun i => subRoot H z leaves i (sibIndex n i))) (bitsD D n)
        L D D 0 (idealPath H z leaves D m) (D - 1 - t)).siblings
        = (List.range D).map (fun i => subRoot H z (leaves ++ [L]) i (sibIndex m i)) := by
      apply eq_of_getD z
      · rw [hq4]
        simp
      · intro j hj
        rw [hq4] at hj
        rw [hq6 j hj, getD_range_map _ _ _ _ hj]
        by_cases hc : 1 ≤ j ∧ n / 2 ^ j = sibIndex m j
        · rw [if_pos hc]
        · have hnot : ¬(n / 2 ^ j = sibIndex m j) := by
            rw [sib_char n m t ha1 ha0 j]
            intro hjt
            exact hc ⟨by omega, (sib_char n m t ha1 ha0 j).mpr hjt⟩
          rw [if_neg (fun hcc => hnot hcc.2),
            subRoot_append_ne H z L leaves j (sibIndex m j) (by rw [hn]; exact hnot)]
    exact apFieldsEq _ _ hq1 c2 c3 hq2

lemma updatePathOld_ideal {Dig : Type} (H : Dig → Dig → Dig) (z : Dig)
    (leaves : List Dig) (L : Dig) (D n : Nat)
    (hn : leaves.length = n) (hnD : n < 2 ^ D)
    (rp0 : List Dig) (hrp0 : rp0.length = D)
    (ms : List Nat) (hms : ∀ m ∈ ms, m < n) :
    MerkleAuthPath.updatePathOld H z
      { depth := D, rootPath := rp0,
        siblings := (List.range D).map (fun i => subRoot H z leaves i (sibIndex n i)),
        childBits := bitsD D n }
      L (ms.map (fun m => idealPath H z leaves D m))
    = ({ depth := D,
         rootPath := (List.range D).map
           (fun i => subRoot H z (leaves ++ [L]) (i + 1) (n / 2 ^ (i + 1))),
         siblings := (List.range D).map (fun i => subRoot H z leaves i (sibIndex n i)),
         childBits := bitsD D n },
       ms.map (fun m => idealPath H z (leaves ++ [L]) D m)) := by
  have hcb : ∀ i, i < D → (bitsD D n).getD i false = decide (n / 2 ^ i % 2 = 1) := by
    intro i hi
    exact getD_range_map _ _ _ _ hi
  have hsb : ∀ i, i < D →
      ((List.range D).map (fun i => subRoot H z leaves i (sibIndex n i))).getD i z
        = subRoot H z leaves i (sibIndex n i) := by
    intro i hi
    exact getD_range_map _ _ _ _ hi
  have hdig := digAt_subRoot H z leaves L D n hn
    ((List.range D).map (fun i => subRoot H z leaves i (sibIndex n i))) (bitsD D n) hcb hsb
  have hdig' : ∀ i, i < D →
      digAt H z ((List.range D).map (fun i => subRoot H z leaves i (sibIndex n i)))
        (bitsD D n) L (i + 1)
        = subRoot H z (leaves ++ [L]) (i + 1) (n / 2 ^ (i + 1)) := by
    intro i hi
    exact hdig (i + 1) (by omega)
  refine Prod.ext ?_ ?_
  · -- the receiver: only rootPath changes
    apply apFieldsEq <;> try rfl
    -- rootPath component
    show (updLoop H z D
        ((List.range D).map (fun i => subRoot H z leaves i (sibIndex n i))) (bitsD D n)
        D 0 L rp0
        ((ms.map (fun m => idealPath H z leaves D m)).map
          (fun p => (p, matchMSB (bitsD D n) p.childBits)))).2.1 = _
    apply eq_of_getD z
    · rw [updLoop_len]
      simp [hrp0]
    · intro j hj
      rw [updLoop_len, hrp0] at hj
      rw [getD_range_map _ _ _ _ hj]
      have hloop : (updLoop H z D
          ((List.range D).map (fun i => subRoot H z leaves i (sibIndex n i))) (bitsD D n)
          D 0 L rp0
          ((ms.map (fun m => idealPath H z leaves D m)).map
            (fun p => (p, matchMSB (bitsD D n) p.childBits)))).2.1.getD j z
          = if 0 ≤ j ∧ j < 0 + D then digAt H z
              ((List.range D).map (fun i => subRoot H z leaves i (sibIndex n i)))
              (bitsD D n) L (j + 1) else rp0.getD j z :=
        updLoop_rootPath H z D _ (bitsD D n) L D 0 rp0 _ z (by omega) j
      rw [hloop, if_pos ⟨by omega, by omega⟩]
      exact hdig' j hj
  · -- the old paths
    show ((updLoop H z D
        ((List.range D).map (fun i => subRoot H z leaves i (sibIndex n i))) (bitsD D n)
        D 0 L rp0
        ((ms.map (fun m => idealPath H z leaves D m)).map
          (fun p => (p, matchMSB (bitsD D n) p.childBits)))).2.2).map _ = _
    have holds2 : (updLoop H z D
        ((List.range D).map (fun i => subRoot H z leaves i (sibIndex n i))) (bitsD D n)
        D 0 L rp0
        ((ms.map (fun m => idealPath H z leaves D m)).map
          (fun p => (p, matchMSB (bitsD D n) p.childBits)))).2.2
        = ((ms.map (fun m => idealPath H z leaves D m)).map
            (fun p => (p, matchMSB (bitsD D n) p.childBits))).map
          (fun q => (patchSeq H z
            ((List.range D).map (fun i => subRoot H z leaves i (sibIndex n i))) (bitsD D n)
            L D D 0 q.1 q.2, q.2)) :=
      updLoop_olds H z D _ (bitsD D n) L D 0 rp0 _
    rw [holds2, List.map_map, List.map_map, List.map_map]
    apply List.map_congr_left
    intro m hm
    exact finalPatch_ideal H z leaves L D n m hn hnD (hms m hm) hdig'

/-! ### updateSiblings on the ideal state -/

lemma treeFieldsEq {Dig : Type} (t u : MerkleTree Dig)
    (h1 : t.isFull = u.isFull) (h2 : t.authPath = u.authPath) : t = u := by
  cases t
  cases u
  simp_all

lemma updateSiblings_full {Dig : Type} (z : Dig) (D n : Nat)
    (hnD : n < 2 ^ D) (hfull : n + 1 = 2 ^ D) (fl : Bool)
    (dp : Nat) (rp sibs : List Dig) (L : Dig) :
    MerkleTree.updateSiblings z
      { isFull := fl,
        authPath :=
          { depth := dp, rootPath := rp, siblings := sibs,
            childBits := bitsD D n } } L
    = { isFull := true,
        authPath :=
          { depth := dp, rootPath := rp, siblings := sibs,
            childBits := bitsD D (n + 1) } } := by
  have hinc : incChildBitsList (bitsD D n) = (bitsD D (n + 1), none) := by
    rw [incChildBits_bitsD D n hnD, if_pos hfull]
  unfold MerkleTree.updateSiblings MerkleAuthPath.incChildBits
  simp only [hinc]

lemma updateSiblings_step {Dig : Type} (H : Dig → Dig → Dig) (z : Dig)
    (leaves' : List Dig) (D n : Nat) (L : Dig)
    (hlen : leaves'.length = n + 1) (hnD : n < 2 ^ D) (hnot : n + 1 ≠ 2 ^ D)
    (hL : leaves'.getD n z = L) (fl : Bool) (dp : Nat) (rp : List Dig)
    (hrpf : ∀ i, i < D → rp.getD i z = subRoot H z leaves' (i + 1) (n / 2 ^ (i + 1))) :
    MerkleTree.updateSiblings z
      { isFull := fl,
        authPath :=
          { depth := dp, rootPath := rp,
            siblings := (List.range D).map (fun i => subRoot H z leaves' i (sibIndex n i)),
            childBits := bitsD D n } } L
    = { isFull := fl,
        authPath :=
          { depth := dp, rootPath := rp,
            siblings := (List.range D).map (fun i => subRoot H z leaves' i (sibIndex (n + 1) i)),
            childBits := bitsD D (n + 1) } } := by
  obtain ⟨hfD, hmod⟩ := trailOnes_spec D n hnD hnot
  obtain ⟨sa, sb, sc, sd, se⟩ := succ_facts (trailOnes D n) n hmod
  have sa' : ∀ j, trailOnes D n < j → (n + 1) / 2 ^ j = n / 2 ^ j :=
    fun j hj => agree_up (trailOnes D n + 1) sa (by omega)
  have hinc : incChildBitsList (bitsD D n) = (bitsD D (n + 1), some (trailOnes D n)) := by
    rw [incChildBits_bitsD D n hnD, if_neg hnot]
  rcases hfv : trailOnes D n with _ | k
  · -- next leaf is a right child
    rw [hfv] at hinc sa sb sc sd se sa' hfD
    have hsib0 : (((List.range D).map (fun i => subRoot H z leaves' i (sibIndex n i))).set 0 L)
        = (List.range D).map (fun i => subRoot H z leaves' i (sibIndex (n + 1) i)) := by
      apply eq_of_getD z
      · simp
      · intro j hj
        simp only [List.length_set, List.length_map, List.length_range] at hj
        by_cases hj0 : j = 0
        · subst hj0
          rw [getD_set_self z L _ 0 (by simp; omega), getD_range_map _ _ _ _ hj]
          have hs : sibIndex (n + 1) 0 = n := by
            unfold sibIndex
            rw [pow_zero, Nat.div_one] at sc ⊢
            rw [if_pos sc]
            omega
          show L = subRoot H z leaves' 0 (sibIndex (n + 1) 0)
          rw [hs]
          show L = leaves'.getD n z
          exact hL.symm
        · rw [getD_set_ne z L _ 0 j (fun hc => hj0 hc.symm), getD_range_map _ _ _ _ hj,
            getD_range_map _ _ _ _ hj]
          congr 1
          unfold sibIndex
          rw [sa' j (by omega)]
    unfold MerkleTree.updateSiblings MerkleAuthPath.incChildBits
    simp only [hinc]
    unfold MerkleAuthPath.leafSibling
    exact treeFieldsEq _ _ rfl (apFieldsEq _ _ rfl rfl hsib0 rfl)
  · -- new branch in the tree
    rw [hfv] at hinc sa sb sc sd se sa' hfD
    unfold MerkleTree.updateSiblings MerkleAuthPath.incChildBits
    simp only [hinc]
    unfold MerkleAuthPath.hashSibling
    refine treeFieldsEq _ _ rfl ?_
    refine apFieldsEq _ _ rfl rfl ?_ rfl
    show (List.range (((List.range D).map
        (fun i => subRoot H z leaves' i (sibIndex n i))).set (k + 1)
          (rp.getD (k + 1 - 1) z)).length).map
      (fun i => if i < k + 1 then z
        else (((List.range D).map (fun i => subRoot H z leaves' i (sibIndex n i))).set (k + 1)
          (rp.getD (k + 1 - 1) z)).getD i z)
      = (List.range D).map (fun i => subRoot H z leaves' i (sibIndex (n + 1) i))
    rw [show (((List.range D).map
        (fun i => subRoot H z leaves' i (sibIndex n i))).set (k + 1)
          (rp.getD (k + 1 - 1) z)).length = D by simp]
    apply eq_of_getD z
    · simp
    · intro j hj
      simp only [List.length_map, List.length_range] at hj
      rw [getD_range_map _ _ _ _ hj, getD_range_map _ _ _ _ hj]
      rcases Nat.lt_trichotomy j (k + 1) with hjf | hjf | hjf
      · rw [if_pos hjf]
        obtain ⟨hz1, hz2⟩ := se j (by omega)
        have hs : sibIndex (n + 1) j = (n + 1) / 2 ^ j + 1 := by
          unfold sibIndex
          rw [if_neg (by omega)]
        rw [hs]
        have hemp : leaves'.length ≤ 2 ^ j * ((n + 1) / 2 ^ j + 1) := by
          have := lt_region_succ (n + 1) j
          omega
        exact (subRoot_empty H z leaves' j _ hemp).symm
      · subst hjf
        rw [if_neg (by omega),
          getD_set_self z _ _ (k + 1) (by simp; omega)]
        have hs : sibIndex (n + 1) (k + 1) = n / 2 ^ (k + 1) := by
          unfold sibIndex
          rw [if_pos sc]
          generalize hA : (n + 1) / 2 ^ (k + 1) = A at sb ⊢
          generalize hB : n / 2 ^ (k + 1) = B at sb ⊢
          omega
        rw [hs]
        show rp.getD (k + 1 - 1) z = _
        have hkk : k + 1 - 1 = k := rfl
        rw [hkk, hrpf k (by omega)]
      · rw [if_neg (by omega),
          getD_set_ne z _ _ (k + 1) j (by omega), getD_range_map _ _ _ _ hj]
        congr 1
        unfold sibIndex
        rw [sa' j (by omega)]

/-! ### Bundle bookkeeping lemmas -/

lemma keptIdx_snoc {Dig : Type} (x : Dig × Bool) :
    ∀ (xs : List (Dig × Bool)) (i : Nat),
      keptIdx (xs ++ [x]) i
        = keptIdx xs i ++ (if x.2 then [i + xs.length] else []) := by
  intro xs
  induction xs with
  | nil =>
    intro i
    show (if x.2 then [i] else []) ++ keptIdx [] (i + 1) = [] ++ _
    simp [keptIdx]
  | cons a t ih =>
    intro i
    show (if a.2 then [i] else []) ++ keptIdx (t ++ [x]) (i + 1)
      = ((if a.2 then [i] else []) ++ keptIdx t (i + 1)) ++ _
    rw [ih (i + 1), List.append_assoc]
    have harith : i + 1 + t.length = i + (a :: t).length := by
      simp
      omega
    rw [harith]

lemma keptIdx_mem {Dig : Type} :
    ∀ (xs : List (Dig × Bool)) (i m : Nat), m ∈ keptIdx xs i →
      i ≤ m ∧ m < i + xs.length := by
  intro xs
  induction xs with
  | nil =>
    intro i m h
    simp [keptIdx] at h
  | cons a t ih =>
    intro i m h
    simp only [keptIdx, List.mem_append] at h
    have hconc : i + 1 ≤ m ∧ m < i + 1 + t.length ∨ m = i := by
      rcases h with h | h
      · split at h
        · simp at h
          omega
        · simp at h
      · exact Or.inl (ih (i + 1) m h)
    simp only [List.length_cons]
    omega

lemma getD_replicate_self {α : Type} (c : α) :
    ∀ (D i : Nat), (List.replicate D c).getD i c = c := by
  intro D
  induction D with
  | zero => intro i; exact getD_nil c i
  | succ D ih =>
    intro i
    cases i with
    | zero => rfl
    | succ j => simpa [List.replicate] using ih j

lemma subRoot_nil {Dig : Type} (H : Dig → Dig → Dig) (z : Dig) (h j : Nat) :
    subRoot H z ([] : List Dig) h j = z :=
  subRoot_empty H z [] h j (by simp)

lemma buildBundle_nil_inv {Dig : Type} (H : Dig → Dig → Dig) (z : Dig) (D : Nat) :
    (buildBundle H z D []).treeSize = 0 ∧
    (buildBundle H z D []).tree.isFull = false ∧
    (buildBundle H z D []).tree.authPath.depth = D ∧
    (buildBundle H z D []).tree.authPath.childBits = bitsD D 0 ∧
    (buildBundle H z D []).tree.authPath.rootPath.length = D ∧
    (buildBundle H z D []).tree.authPath.siblings
      = (List.range D).map (fun i => subRoot H z ([] : List Dig) i (sibIndex 0 i)) ∧
    (buildBundle H z D []).authLeaf = [] ∧
    (buildBundle H z D []).authPath = [] := by
  refine ⟨rfl, rfl, rfl, ?_, by simp [buildBundle, MerkleBundle.init,
    MerkleTree.init, MerkleAuthPath.init], ?_, rfl, rfl⟩
  · show List.replicate D false = bitsD D 0
    apply eq_of_getD false
    · simp [bitsD]
    · intro i hi
      simp only [List.length_replicate] at hi
      rw [getD_replicate_self]
      unfold bitsD
      rw [getD_range_map _ _ _ _ hi]
      simp
  · show List.replicate D z = _
    apply eq_of_getD z
    · simp
    · intro i hi
      simp only [List.length_replicate] at hi
      rw [getD_replicate_self, getD_range_map _ _ _ _ hi, subRoot_nil]

/-! ### The bundle invariant -/

lemma bundle_inv {Dig : Type} (H : Dig → Dig → Dig) (z : Dig) (D : Nat) :
    ∀ (inserts : List (Dig × Bool)), inserts.length ≤ 2 ^ D →
      (buildBundle H z D inserts).treeSize = inserts.length ∧
      (buildBundle H z D inserts).tree.isFull = decide (inserts.length = 2 ^ D) ∧
      (buildBundle H z D inserts).tree.authPath.depth = D ∧
      (buildBundle H z D inserts).tree.authPath.childBits = bitsD D inserts.length ∧
      (buildBundle H z D inserts).tree.authPath.rootPath.length = D ∧
      (∀ k, k + 1 = inserts.length →
        (buildBundle H z D inserts).tree.authPath.rootPath
          = (List.range D).map
              (fun i => subRoot H z (inserts.map Prod.fst) (i + 1) (k / 2 ^ (i + 1)))) ∧
      (buildBundle H z D inserts).tree.authPath.siblings
        = (List.range D).map (fun i =>
            subRoot H z (inserts.map Prod.fst) i
              (sibIndex (min inserts.length (2 ^ D - 1)) i)) ∧
      (buildBundle H z D inserts).authLeaf
        = (keptIdx inserts 0).map (fun m => (inserts.map Prod.fst).getD m z) ∧
      (buildBundle H z D inserts).authPath
        = (keptIdx inserts 0).map (fun m => idealPath H z (inserts.map Prod.fst) D m) := by
  intro inserts
  induction inserts using List.reverseRecOn with
  | nil =>
    intro _
    obtain ⟨b1, b2, b3, b4, b5, b6, b7, b8⟩ := buildBundle_nil_inv H z D
    have h20 := two_pow_pos' D
    refine ⟨b1, ?_, b3, b4, b5, ?_, ?_, ?_, ?_⟩
    · rw [b2, decide_eq_false (by simp; omega)]
    · intro k hk
      simp at hk
    · rw [b6]
      simp
    · rw [b7]
      simp [keptIdx]
    · rw [b8]
      simp [keptIdx]
  | append_singleton xs x ih =>
    rcases x with ⟨L, keep⟩
    intro hlen
    have hlxs : (xs ++ [(L, keep)]).length = xs.length + 1 := by simp
    have hnD : xs.length < 2 ^ D := by
      rw [hlxs] at hlen
      omega
    obtain ⟨h1, h2, h3, h4, h5, h6, h7, h8, h9⟩ := ih (by omega)
    have h20 := two_pow_pos' D
    have hmin : min xs.length (2 ^ D - 1) = xs.length := by omega
    rw [hmin] at h7
    have hn : (xs.map Prod.fst).length = xs.length := by simp
    have hlen' : ((xs.map Prod.fst) ++ [L]).length = xs.length + 1 := by simp
    have hmapapp : (xs ++ [(L, keep)]).map Prod.fst = (xs.map Prod.fst) ++ [L] := by simp
    have hL' : ((xs.map Prod.fst) ++ [L]).getD xs.length z = L := by
      rw [← hn]
      exact getD_concat_len z L (xs.map Prod.fst)
    have hms : ∀ m ∈ keptIdx xs 0, m < xs.length := by
      intro m hm
      have := keptIdx_mem xs 0 m hm
      omega
    have hfrA : (buildBundle H z D xs).tree.authPath
        = { depth := D, rootPath := (buildBundle H z D xs).tree.authPath.rootPath,
            siblings := (List.range D).map (fun i =>
              subRoot H z (xs.map Prod.fst) i (sibIndex xs.length i)),
            childBits := bitsD D xs.length } :=
      apFieldsEq _ _ h3 rfl h7 h4
    have hr' : (buildBundle H z D xs).tree.authPath.updatePathOld H z L
          (buildBundle H z D xs).authPath
        = ({ depth := D,
             rootPath := (List.range D).map (fun i =>
               subRoot H z ((xs.map Prod.fst) ++ [L]) (i + 1) (xs.length / 2 ^ (i + 1))),
             siblings := (List.range D).map (fun i =>
               subRoot H z (xs.map Prod.fst) i (sibIndex xs.length i)),
             childBits := bitsD D xs.length },
           (keptIdx xs 0).map (fun m => idealPath H z ((xs.map Prod.fst) ++ [L]) D m)) := by
      conv_lhs => rw [hfrA, h9]
      exact updatePathOld_ideal H z (xs.map Prod.fst) L D xs.length hn hnD
        (buildBundle H z D xs).tree.authPath.rootPath h5 (keptIdx xs 0) hms
    have hbuild : buildBundle H z D (xs ++ [(L, keep)])
        = (buildBundle H z D xs).addLeaf H z L keep := by
      unfold buildBundle
      rw [List.foldl_append]
      rfl
    have hstab : (List.range D).map (fun i =>
          subRoot H z (xs.map Prod.fst) i (sibIndex xs.length i))
        = (List.range D).map (fun i =>
          subRoot H z ((xs.map Prod.fst) ++ [L]) i (sibIndex xs.length i)) := by
      apply eq_of_getD z
      · simp
      · intro j hj
        simp only [List.length_map, List.length_range] at hj
        rw [getD_range_map _ _ _ _ hj, getD_range_map _ _ _ _ hj]
        exact (subRoot_append_ne H z L (xs.map Prod.fst) j _
          (by rw [hn]; exact fun hc => sibIndex_ne xs.length j hc.symm)).symm
    have hrpf : ∀ i, i < D →
        ((List.range D).map (fun i =>
          subRoot H z ((xs.map Prod.fst) ++ [L]) (i + 1) (xs.length / 2 ^ (i + 1)))).getD i z
        = subRoot H z ((xs.map Prod.fst) ++ [L]) (i + 1) (xs.length / 2 ^ (i + 1)) := by
      intro i hi
      exact getD_range_map _ _ _ _ hi
    have htree : ((buildBundle H z D xs).addLeaf H z L keep).tree
        = MerkleTree.updateSiblings z
          { isFull := (buildBundle H z D xs).tree.isFull,
            authPath :=
              { depth := D,
                rootPath := (List.range D).map (fun i =>
                  subRoot H z ((xs.map Prod.fst) ++ [L]) (i + 1) (xs.length / 2 ^ (i + 1))),
                siblings := (List.range D).map (fun i =>
                  subRoot H z ((xs.map Prod.fst) ++ [L]) i (sibIndex xs.length i)),
                childBits := bitsD D xs.length } } L := by
      show MerkleTree.updateSiblings z
          { isFull := (buildBundle H z D xs).tree.isFull,
            authPath := ((buildBundle H z D xs).tree.authPath.updatePathOld H z L
              (buildBundle H z D xs).authPath).1 } L = _
      rw [hr', hstab]
    have hcomp1 : ((buildBundle H z D xs).addLeaf H z L keep).treeSize = xs.length + 1 := by
      show (buildBundle H z D xs).treeSize + 1 = xs.length + 1
      rw [h1]
    have hFideal :
        ({ depth := D,
           rootPath := (List.range D).map (fun i =>
             subRoot H z ((xs.map Prod.fst) ++ [L]) (i + 1) (xs.length / 2 ^ (i + 1))),
           siblings := (List.range D).map (fun i =>
             subRoot H z (xs.map Prod.fst) i (sibIndex xs.length i)),
           childBits := bitsD D xs.length } : MerkleAuthPath Dig)
        = idealPath H z ((xs.map Prod.fst) ++ [L]) D xs.length :=
      apFieldsEq _ _ rfl rfl hstab rfl
    have hcomp8 : ((buildBundle H z D xs).addLeaf H z L keep).authLeaf
        = (keptIdx (xs ++ [(L, keep)]) 0).map
            (fun m => ((xs.map Prod.fst) ++ [L]).getD m z) := by
      show (if keep then (buildBundle H z D xs).authLeaf ++ [L]
          else (buildBundle H z D xs).authLeaf) = _
      rw [keptIdx_snoc (L, keep) xs 0, h8]
      have hmap1 : (keptIdx xs 0).map (fun m => (xs.map Prod.fst).getD m z)
          = (keptIdx xs 0).map (fun m => ((xs.map Prod.fst) ++ [L]).getD m z) := by
        apply List.map_congr_left
        intro m hm
        exact (getD_append_lt z (xs.map Prod.fst) [L] m (by rw [hn]; exact hms m hm)).symm
      rw [hmap1]
      cases keep
      · simp
      · simp [hL']
    have hcomp9 : ((buildBundle H z D xs).addLeaf H z L keep).authPath
        = (keptIdx (xs ++ [(L, keep)]) 0).map
            (fun m => idealPath H z ((xs.map Prod.fst) ++ [L]) D m) := by
      show (if keep
          then ((buildBundle H z D xs).tree.authPath.updatePathOld H z L
              (buildBundle H z D xs).authPath).2
            ++ [((buildBundle H z D xs).tree.authPath.updatePathOld H z L
              (buildBundle H z D xs).authPath).1]
          else ((buildBundle H z D xs).tree.authPath.updatePathOld H z L
              (buildBundle H z D xs).authPath).2) = _
      rw [hr', keptIdx_snoc (L, keep) xs 0]
      cases keep
      · simp
      · simp only [List.map_append, List.map_cons, List.map_nil, Nat.zero_add]
        show ((keptIdx xs 0).map (fun m => idealPath H z ((xs.map Prod.fst) ++ [L]) D m))
            ++ [({ depth := D,
                   rootPath := (List.range D).map (fun i =>
                     subRoot H z ((xs.map Prod.fst) ++ [L]) (i + 1) (xs.length / 2 ^ (i + 1))),
                   siblings := (List.range D).map (fun i =>
                     subRoot H z (xs.map Prod.fst) i (sibIndex xs.length i)),
                   childBits := bitsD D xs.length } : MerkleAuthPath Dig)] = _
        rw [hFideal]
        simp
    rw [hbuild]
    rw [List.length_append, hmapapp]
    simp only [List.length_singleton]
    by_cases hfull : xs.length + 1 = 2 ^ D
    · have htree2 := htree.trans (updateSiblings_full z D xs.length hnD hfull
        (buildBundle H z D xs).tree.isFull D _ _ L)
      refine ⟨hcomp1, ?_, ?_, ?_, ?_, ?_, ?_, hcomp8, hcomp9⟩
      · rw [htree2]
        show true = decide (xs.length + 1 = 2 ^ D)
        simp [hfull]
      · rw [htree2]
      · rw [htree2]
      · rw [htree2]
        simp
      · intro k hk
        have hkn : k = xs.length := by omega
        subst hkn
        rw [htree2]
      · rw [htree2]
        show (List.range D).map (fun i =>
            subRoot H z ((xs.map Prod.fst) ++ [L]) i (sibIndex xs.length i)) = _
        rw [show min (xs.length + 1) (2 ^ D - 1) = xs.length from by omega]
    · have htree2 := htree.trans (updateSiblings_step H z ((xs.map Prod.fst) ++ [L]) D
        xs.length L hlen' hnD hfull hL' (buildBundle H z D xs).tree.isFull D _ hrpf)
      refine ⟨hcomp1, ?_, ?_, ?_, ?_, ?_, ?_, hcomp8, hcomp9⟩
      · rw [htree2]
        show (buildBundle H z D xs).tree.isFull = decide (xs.length + 1 = 2 ^ D)
        rw [h2, decide_eq_false (by omega), decide_eq_false (by omega)]
      · rw [htree2]
      · rw [htree2]
      · rw [htree2]
        simp
      · intro k hk
        have hkn : k = xs.length := by omega
        subst hkn
        rw [htree2]
      · rw [htree2]
        show (List.range D).map (fun i =>
            subRoot H z ((xs.map Prod.fst) ++ [L]) i (sibIndex (xs.length + 1) i)) = _
        rw [show min (xs.length + 1) (2 ^ D - 1) = xs.length + 1 from by omega]

/-! ### Reconstructing the root from a snapshot -/

lemma reconstruct_append {Dig : Type} (H : Dig → Dig → Dig) :
    ∀ (l1 l2 : List (Dig × Bool)) (d : Dig),
      reconstruct H d (l1 ++ l2) = reconstruct H (reconstruct H d l1) l2 := by
  intro l1
  induction l1 with
  | nil => intro l2 d; rfl
  | cons p t ih =>
    rcases p with ⟨s, b⟩
    intro l2 d
    show reconstruct H _ (t ++ l2) = _
    rw [ih]
    rfl

lemma getLastD_range_map {β : Type} (f : Nat → β) (d : β) (D : Nat) (hD : 1 ≤ D) :
    ((List.range D).map f).getLastD d = f (D - 1) := by
  cases D with
  | zero => omega
  | succ k =>
    rw [List.range_succ, List.map_append]
    simp

lemma getD_mem_of_lt {α : Type} (d : α) :
    ∀ (l : List α) (i : Nat), i < l.length → l.getD i d ∈ l := by
  intro l
  induction l with
  | nil => intro i h; simp at h
  | cons a t ih =>
    intro i h
    cases i with
    | zero => exact List.mem_cons_self a t
    | succ j =>
      have := ih j (by simpa using h)
      exact List.mem_cons_of_mem a this

lemma recon_aux {Dig : Type} (H : Dig → Dig → Dig) (z : Dig) (leaves : List Dig)
    (m : Nat) (hm : m < leaves.length) :
    ∀ D : Nat,
      reconstruct H (leaves.getD m z)
        (((List.range D).map (fun i => subRoot H z leaves i (sibIndex m i))).zip
          (bitsD D m))
      = subRoot H z leaves D (m / 2 ^ D) := by
  intro D
  induction D with
  | zero =>
    show leaves.getD m z = subRoot H z leaves 0 (m / 2 ^ 0)
    simp [subRoot]
  | succ D ih =>
    rw [List.range_succ, List.map_append, bitsD_succ_snoc,
      List.zip_append (by simp [bitsD]), reconstruct_append, ih]
    show reconstruct H
        (if decide (m / 2 ^ D % 2 = 1) = true
          then H (subRoot H z leaves D (sibIndex m D)) (subRoot H z leaves D (m / 2 ^ D))
          else H (subRoot H z leaves D (m / 2 ^ D)) (subRoot H z leaves D (sibIndex m D))) []
      = subRoot H z leaves (D + 1) (m / 2 ^ (D + 1))
    simp only [decide_eq_true_eq]
    have hreg := region_le m D
    have hp : (2 : Nat) ^ (D + 1) = 2 ^ D * 2 := pow_succ 2 D
    have hdn : m / 2 ^ (D + 1) = m / 2 ^ D / 2 := div_pow_succ m D
    have hstep : 2 ^ (D + 1) * (m / 2 ^ D / 2) < leaves.length := by
      have h3 : m / 2 ^ D / 2 * 2 ≤ m / 2 ^ D := Nat.div_mul_le_self _ 2
      have h4 : 2 ^ (D + 1) * (m / 2 ^ D / 2) ≤ 2 ^ D * (m / 2 ^ D) := by
        calc 2 ^ (D + 1) * (m / 2 ^ D / 2) = 2 ^ D * (m / 2 ^ D / 2 * 2) := by
              rw [hp]; ring
          _ ≤ 2 ^ D * (m / 2 ^ D) := Nat.mul_le_mul_left _ h3
      omega
    have hnode := subRoot_node H z leaves D (m / 2 ^ D / 2) hstep
    rw [hdn, hnode]
    unfold sibIndex
    by_cases hodd : m / 2 ^ D % 2 = 1
    · rw [if_pos hodd, if_pos hodd]
      have e1 : 2 * (m / 2 ^ D / 2) = m / 2 ^ D - 1 := by
        generalize m / 2 ^ D = n at hodd ⊢
        omega
      have e2 : 2 * (m / 2 ^ D / 2) + 1 = m / 2 ^ D := by
        generalize m / 2 ^ D = n at hodd ⊢
        omega
      rw [e2, e1]
      rfl
    · rw [if_neg hodd, if_neg hodd]
      have e1 : 2 * (m / 2 ^ D / 2) = m / 2 ^ D := by
        generalize m / 2 ^ D = n at hodd ⊢
        omega
      rw [e1]
      rfl

/-! ### The isFull latch -/

lemma updateSiblings_latch {Dig : Type} (z : Dig) (t : MerkleTree Dig) (L : Dig)
    (h : t.isFull = true) : (t.updateSiblings z L).isFull = true := by
  unfold MerkleTree.updateSiblings
  rcases hr : t.authPath.incChildBits with ⟨ap', o⟩
  rcases o with _ | k
  · rfl
  · rcases k with _ | k'
    · exact h
    · exact h

lemma updateSiblings_depth {Dig : Type} (z : Dig) (t : MerkleTree Dig) (L : Dig) :
    (t.updateSiblings z L).authPath.depth = t.authPath.depth := by
  unfold MerkleTree.updateSiblings
  rcases hr : t.authPath.incChildBits with ⟨ap', o⟩
  have hap : ap'.depth = t.authPath.depth := by
    have h2 : (t.authPath.incChildBits).1.depth = t.authPath.depth := rfl
    rw [hr] at h2
    exact h2
  rcases o with _ | k
  · exact hap
  · rcases k with _ | k'
    · exact hap
    · exact hap

lemma addLeaf_latch {Dig : Type} (H : Dig → Dig → Dig) (z : Dig)
    (b : MerkleBundle Dig) (cm : Dig) (keep : Bool) (h : b.tree.isFull = true) :
    (b.addLeaf H z cm keep).tree.isFull = true := by
  show ((b.tree.updatePathOld H z cm b.authPath).1.updateSiblings z cm).isFull = true
  exact updateSiblings_latch z _ cm h

lemma addLeaf_treeSize {Dig : Type} (H : Dig → Dig → Dig) (z : Dig)
    (b : MerkleBundle Dig) (cm : Dig) (keep : Bool) :
    (b.addLeaf H z cm keep).treeSize = b.treeSize + 1 := rfl

lemma addLeaf_depth {Dig : Type} (H : Dig → Dig → Dig) (z : Dig)
    (b : MerkleBundle Dig) (cm : Dig) (keep : Bool) :
    (b.addLeaf H z cm keep).tree.authPath.depth = b.tree.authPath.depth := by
  show ((b.tree.updatePathOld H z cm b.authPath).1.updateSiblings z cm).authPath.depth = _
  rw [updateSiblings_depth]
  rfl

lemma applyOp_latch {Dig : Type} (H : Dig → Dig → Dig) (z : Dig)
    (b : MerkleBundle Dig) (op : AccOp Dig) (h : b.tree.isFull = true) :
    (applyOp H z b op).tree.isFull = true := by
  cases op with
  | updPath l => exact h
  | updSibs l => exact updateSiblings_latch z b.tree l h
  | leafSib l => exact h
  | hashSib k => exact h
  | addLf l k => exact addLeaf_latch H z b l k h

lemma foldl_latch {Dig : Type} (H : Dig → Dig → Dig) (z : Dig) :
    ∀ (ops : List (AccOp Dig)) (b : MerkleBundle Dig), b.tree.isFull = true →
      (ops.foldl (applyOp H z) b).tree.isFull = true := by
  intro ops
  induction ops with
  | nil => intro b h; exact h
  | cons op t ih => intro b h; exact ih _ (applyOp_latch H z b op h)

/-! ### Marshalling round trips -/

lemma set_append_len {α : Type} (x : α) :
    ∀ (pre : List α) (c : α) (cs : List α),
      (pre ++ c :: cs).set pre.length x = pre ++ x :: cs := by
  intro pre
  induction pre with
  | nil => intro c cs; rfl
  | cons a t ih => intro c cs; simpa using ih c cs

lemma resizeWith_len {α : Type} (d : α) (xs : List α) (n : Nat) :
    (resizeWith d xs n).length = n := by
  unfold resizeWith
  simp
  omega

lemma resizeWith_self {α : Type} (d : α) (xs : List α) :
    resizeWith d xs xs.length = xs := by
  unfold resizeWith
  simp

lemma fillDigs_ok {Dig : Type} (z : Dig) :
    ∀ (xs pre cur : List Dig) (rest : List (Tok Dig)), cur.length = xs.length →
      fillDigs z (pre ++ cur) pre.length xs.length (xs.map Tok.dig ++ rest)
        = (pre ++ xs, rest, true) := by
  intro xs
  induction xs with
  | nil =>
    intro pre cur rest hlen
    have hc : cur = [] := List.length_eq_zero.mp (by simpa using hlen)
    subst hc
    rfl
  | cons x t ih =>
    intro pre cur rest hlen
    cases cur with
    | nil => simp at hlen
    | cons c cs =>
      show fillDigs z ((pre ++ c :: cs).set pre.length x) (pre.length + 1) t.length
          (t.map Tok.dig ++ rest) = (pre ++ x :: t, rest, true)
      rw [set_append_len]
      have h2 : pre.length + 1 = (pre ++ [x]).length := by simp
      have h3 : pre ++ x :: cs = (pre ++ [x]) ++ cs := by simp
      rw [h3, h2, ih (pre ++ [x]) cs rest (by simpa using hlen)]
      simp

lemma fillBits_ok {Dig : Type} :
    ∀ (bs pre cur : List Bool) (rest : List (Tok Dig)),
      cur.length = bs.length →
      fillBits (pre ++ cur) pre.length bs.length (bs.map boolOut ++ rest)
        = ((pre ++ bs, rest, true) : List Bool × List (Tok Dig) × Bool) := by
  intro bs
  induction bs with
  | nil =>
    intro pre cur rest hlen
    have hc : cur = [] := List.length_eq_zero.mp (by simpa using hlen)
    subst hc
    rfl
  | cons b t ih =>
    intro pre cur rest hlen
    cases cur with
    | nil => simp at hlen
    | cons c cs =>
      have hbv : decide ((if b then (1 : Nat) else 0) ≠ 0) = b := by
        cases b <;> rfl
      show fillBits ((pre ++ c :: cs).set pre.length (decide ((if b then (1 : Nat) else 0) ≠ 0)))
          (pre.length + 1) t.length (t.map boolOut ++ rest)
        = (pre ++ b :: t, rest, true)
      rw [hbv, set_append_len]
      have h2 : pre.length + 1 = (pre ++ [b]).length := by simp
      have h3 : pre ++ b :: cs = (pre ++ [b]) ++ cs := by simp
      rw [h3, h2, ih (pre ++ [b]) cs rest (by simpa using hlen)]
      simp

lemma vecIn_vecOut {Dig : Type} (z : Dig) (old xs : List Dig) (rest : List (Tok Dig)) :
    vecIn z old (vecOut xs ++ rest) = (xs, rest, true) := by
  show fillDigs z (resizeWith z old xs.length) 0 xs.length (xs.map Tok.dig ++ rest)
    = (xs, rest, true)
  have h := fillDigs_ok z xs [] (resizeWith z old xs.length) rest (resizeWith_len z old xs.length)
  simpa using h

lemma readBool_boolOut {Dig : Type} (b : Bool) (ts : List (Tok Dig)) :
    readBool (boolOut b :: ts) = some (b, ts) := by
  cases b <;> rfl

lemma marshal_roundtrip_ap {Dig : Type} (z : Dig) (ap q : MerkleAuthPath Dig)
    (rest : List (Tok Dig)) (h : ap.wff) :
    q.marshal_in z (ap.marshal_out ++ rest) = (ap, rest, true) := by
  obtain ⟨hd, hrp, hsb, hcb⟩ := h
  have hts : ap.marshal_out ++ rest
      = Tok.nat ap.depth
        :: (vecOut ap.rootPath
          ++ (vecOut ap.siblings ++ (ap.childBits.map boolOut ++ rest))) := by
    show Tok.nat ap.depth
        :: ((vecOut ap.rootPath ++ vecOut ap.siblings ++ ap.childBits.map boolOut) ++ rest) = _
    simp [List.append_assoc]
  have hfb : ∀ (old : List Bool),
      fillBits old 0 ap.depth (ap.childBits.map boolOut ++ rest)
        = ((ap.childBits, rest, true) : List Bool × List (Tok Dig) × Bool)
        ∨ ¬ old.length = ap.depth := by
    intro old
    by_cases hol : old.length = ap.depth
    · left
      have h2 := fillBits_ok ap.childBits [] old rest (by omega)
      rw [← hcb]
      simpa using h2
    · right; exact hol
  rw [hts]
  unfold MerkleAuthPath.marshal_in
  simp only [readNat]
  rw [if_neg (by omega : ¬ ap.depth = 0)]
  rw [vecIn_vecOut, vecIn_vecOut]
  have hfb2 : fillBits (resizeWith false q.childBits ap.depth) 0 ap.depth
      (ap.childBits.map boolOut ++ rest)
      = ((ap.childBits, rest, true) : List Bool × List (Tok Dig) × Bool) := by
    rcases hfb (resizeWith false q.childBits ap.depth) with h2 | h2
    · exact h2
    · exact absurd (resizeWith_len false q.childBits ap.depth) h2
  rw [hfb2]
  rfl

lemma marshal_roundtrip_tree {Dig : Type} (z : Dig) (t : MerkleTree Dig)
    (q : MerkleTree Dig) (rest : List (Tok Dig)) (h : t.authPath.wff) :
    q.marshal_in z (t.marshal_out ++ rest) = (t, rest, true) := by
  have hts : t.marshal_out ++ rest = boolOut t.isFull :: (t.authPath.marshal_out ++ rest) := rfl
  rw [hts]
  unfold MerkleTree.marshal_in
  rw [readBool_boolOut]
  have hap := marshal_roundtrip_ap z t.authPath q.authPath rest h
  simp [hap]

lemma readPaths_rt {Dig : Type} (z : Dig) :
    ∀ (ps qs : List (MerkleAuthPath Dig)) (rest : List (Tok Dig)),
      qs.length = ps.length → (∀ p ∈ ps, p.wff) →
      readPaths z qs ((ps.map MerkleAuthPath.marshal_out).flatten ++ rest)
        = (ps, rest, true) := by
  intro ps
  induction ps with
  | nil =>
    intro qs rest hlen _
    have hq : qs = [] := List.length_eq_zero.mp (by simpa using hlen)
    subst hq
    rfl
  | cons p pt ih =>
    intro qs rest hlen hw
    cases qs with
    | nil => simp at hlen
    | cons q qt =>
      have hstream : ((p :: pt).map MerkleAuthPath.marshal_out).flatten ++ rest
          = p.marshal_out ++ ((pt.map MerkleAuthPath.marshal_out).flatten ++ rest) := by
        simp
      show readPaths z (q :: qt) (((p :: pt).map MerkleAuthPath.marshal_out).flatten ++ rest)
        = (p :: pt, rest, true)
      rw [hstream]
      unfold readPaths
      have hap := marshal_roundtrip_ap z p q
        ((pt.map MerkleAuthPath.marshal_out).flatten ++ rest)
        (hw p (List.mem_cons_self p pt))
      have hih := ih qt rest (by simpa using hlen)
        (fun p' hp' => hw p' (List.mem_cons_of_mem p hp'))
      simp [hap, hih]

lemma marshal_roundtrip_bundle {Dig : Type} (z : Dig) (b q : MerkleBundle Dig)
    (rest : List (Tok Dig)) (ht : b.tree.authPath.wff)
    (hlen : b.authPath.length = b.authLeaf.length)
    (hw : ∀ p ∈ b.authPath, p.wff) :
    q.marshal_in z (b.marshal_out ++ rest) = (b, rest, true) := by
  have hts : b.marshal_out ++ rest
      = b.tree.marshal_out
        ++ (Tok.nat b.treeSize
          :: (vecOut b.authLeaf
            ++ ((b.authPath.map MerkleAuthPath.marshal_out).flatten ++ rest))) := by
    show (b.tree.marshal_out ++ [Tok.nat b.treeSize] ++ vecOut b.authLeaf
        ++ (b.authPath.map MerkleAuthPath.marshal_out).flatten) ++ rest = _
    simp [List.append_assoc]
  rw [hts]
  unfold MerkleBundle.marshal_in
  have h1 := marshal_roundtrip_tree z b.tree q.tree
    (Tok.nat b.treeSize
      :: (vecOut b.authLeaf ++ ((b.authPath.map MerkleAuthPath.marshal_out).flatten ++ rest))) ht
  have h2 := vecIn_vecOut z q.authLeaf b.authLeaf
    ((b.authPath.map MerkleAuthPath.marshal_out).flatten ++ rest)
  have hrp : readPaths z
      (resizeWith MerkleAuthPath.fresh q.authPath b.authLeaf.length)
      ((b.authPath.map MerkleAuthPath.marshal_out).flatten ++ rest)
      = (b.authPath, rest, true) :=
    readPaths_rt z b.authPath _ rest (by rw [resizeWith_len]; omega) hw
  simp [h1, readNat, h2, hrp]

/-! ### Marshalling failure states -/

lemma ap_marshal_in_state {Dig : Type} (z : Dig) (ap : MerkleAuthPath Dig)
    (ts : List (Tok Dig)) :
    (ap.marshal_in z ts).1.depth = 0 ∨ (ap.marshal_in z ts).2.2 = true := by
  unfold MerkleAuthPath.marshal_in
  split
  · left; rfl
  · split
    · left; rfl
    · dsimp only
      split
      · left; rfl
      · split
        · left; rfl
        · split
          · left; rfl
          · right; rfl

lemma tree_marshal_in_state {Dig : Type} (z : Dig) (t : MerkleTree Dig)
    (ts : List (Tok Dig)) :
    (t.marshal_in z ts).1.isFull = true ∨ (t.marshal_in z ts).2.2 = true := by
  unfold MerkleTree.marshal_in
  split
  · left; rfl
  · dsimp only
    split
    · left; rfl
    · right; rfl

/-! ### Garbage collection -/

lemma gc_zip {α β : Type} (d : α) (e : β) (p : α → Bool) :
    ∀ (xs : List α) (ys : List β), xs.length = ys.length →
      ((List.range xs.length).filter (fun i => p (xs.getD i d))).map
          (fun i => (xs.getD i d, ys.getD i e))
        = (xs.zip ys).filter (fun q => p q.1) := by
  intro xs
  induction xs with
  | nil => intro ys _; rfl
  | cons x xt ih =>
    intro ys hlen
    cases ys with
    | nil => simp at hlen
    | cons y yt =>
      have hlen' : xt.length = yt.length := by simpa using hlen
      have hcomp : ((List.range xt.length).map Nat.succ).filter
            (fun i => p ((x :: xt).getD i d))
          = ((List.range xt.length).filter (fun i => p (xt.getD i d))).map Nat.succ := by
        rw [List.filter_map]
        rfl
      have hfun : ((fun i => ((x :: xt).getD i d, (y :: yt).getD i e)) ∘ Nat.succ)
          = fun i => (xt.getD i d, yt.getD i e) := rfl
      show ((List.range (xt.length + 1)).filter (fun i => p ((x :: xt).getD i d))).map
          (fun i => ((x :: xt).getD i d, (y :: yt).getD i e))
        = ((x, y) :: xt.zip yt).filter (fun q => p q.1)
      rw [List.range_succ_eq_map, List.filter_cons]
      by_cases hpx : p ((x :: xt).getD 0 d) = true
      · rw [if_pos hpx, List.map_cons, hcomp, List.map_map, hfun, ih yt hlen',
          List.filter_cons, if_pos (by exact hpx)]
        rfl
      · rw [if_neg hpx, hcomp, List.map_map, hfun, ih yt hlen',
          List.filter_cons, if_neg (by exact hpx)]

/-! ### The claims -/

/-- Claim C1.  For every Bundle built by a sequence of addLeaf calls on a
fresh Bundle of depth D with at most 2^D leaves, after every addLeaf every
retained snapshot authPath[i] is exactly the path an ideal observer would
report for leaf authLeaf[i] at its original position (siblings, childBits
and rootPath all agree with the live tree restricted to that leaf), and in
particular reconstructing the root from (authLeaf[i], siblings, childBits)
yields the rootHash of the live tree. -/
theorem C1_snapshot_inv {Dig : Type} (H : Dig → Dig → Dig) (z : Dig) (D : Nat)
    (inserts : List (Dig × Bool)) (hD : 1 ≤ D) (hlen : inserts.length ≤ 2 ^ D)
    (hne : inserts ≠ []) :
    (buildBundle H z D inserts).authLeaf
        = (keptIdx inserts 0).map (fun m => (inserts.map Prod.fst).getD m z) ∧
    (buildBundle H z D inserts).authPath
        = (keptIdx inserts 0).map (fun m => idealPath H z (inserts.map Prod.fst) D m) ∧
    ∀ i, i < (buildBundle H z D inserts).authPath.length →
      reconstruct H ((buildBundle H z D inserts).authLeaf.getD i z)
          ((((buildBundle H z D inserts).authPath.getD i MerkleAuthPath.fresh).siblings).zip
            (((buildBundle H z D inserts).authPath.getD i MerkleAuthPath.fresh).childBits))
        = (buildBundle H z D inserts).rootHash z := by
  obtain ⟨h1, h2, h3, h4, h5, h6, h7, h8, h9⟩ := bundle_inv H z D inserts hlen
  refine ⟨h8, h9, ?_⟩
  intro i hi
  have hik : i < (keptIdx inserts 0).length := by
    rw [h9] at hi
    simpa using hi
  have hmm : (keptIdx inserts 0).getD i 0 ∈ keptIdx inserts 0 := getD_mem_of_lt 0 _ i hik
  have hmlt := keptIdx_mem inserts 0 _ hmm
  have hml : (keptIdx inserts 0).getD i 0 < (inserts.map Prod.fst).length := by
    rw [List.length_map]
    omega
  rw [h8, h9, getD_map_lt (fun m => (inserts.map Prod.fst).getD m z) z 0 _ i hik,
    getD_map_lt (fun m => idealPath H z (inserts.map Prod.fst) D m) MerkleAuthPath.fresh 0 _ i hik]
  show reconstruct H ((inserts.map Prod.fst).getD ((keptIdx inserts 0).getD i 0) z)
      (((List.range D).map (fun j => subRoot H z (inserts.map Prod.fst) j
          (sibIndex ((keptIdx inserts 0).getD i 0) j))).zip
        (bitsD D ((keptIdx inserts 0).getD i 0)))
    = (buildBundle H z D inserts).rootHash z
  rw [recon_aux H z (inserts.map Prod.fst) _ hml D]
  obtain ⟨k, hk⟩ : ∃ k, k + 1 = inserts.length :=
    ⟨inserts.length - 1, by
      have hpos : 0 < inserts.length := List.length_pos.mpr hne
      omega⟩
  have hrp := h6 k hk
  show subRoot H z (inserts.map Prod.fst) D ((keptIdx inserts 0).getD i 0 / 2 ^ D)
    = ((buildBundle H z D inserts).tree.authPath.rootPath).getLastD z
  rw [hrp, getLastD_range_map _ z D hD]
  have hD1 : D - 1 + 1 = D := by omega
  rw [hD1]
  have hm0 : (keptIdx inserts 0).getD i 0 / 2 ^ D = 0 := Nat.div_eq_of_lt (by omega)
  have hk0 : k / 2 ^ D = 0 := Nat.div_eq_of_lt (by omega)
  rw [hm0, hk0]

/-- Witness for C1 at depth 1 with one kept insertion. -/
theorem C1_snapshot_inv_witness :
    (1 ≤ 1 ∧ ([((5 : Nat), true)] : List (Nat × Bool)).length ≤ 2 ^ 1
        ∧ ([((5 : Nat), true)] : List (Nat × Bool)) ≠ []) ∧
    ((buildBundle Hc 0 1 [((5 : Nat), true)]).authLeaf
        = (keptIdx [((5 : Nat), true)] 0).map
            (fun m => (([((5 : Nat), true)] : List (Nat × Bool)).map Prod.fst).getD m 0) ∧
      (buildBundle Hc 0 1 [((5 : Nat), true)]).authPath
        = (keptIdx [((5 : Nat), true)] 0).map
            (fun m => idealPath Hc 0 (([((5 : Nat), true)] : List (Nat × Bool)).map Prod.fst) 1 m) ∧
      ∀ i, i < (buildBundle Hc 0 1 [((5 : Nat), true)]).authPath.length →
        reconstruct Hc ((buildBundle Hc 0 1 [((5 : Nat), true)]).authLeaf.getD i 0)
            ((((buildBundle Hc 0 1 [((5 : Nat), true)]).authPath.getD i
                MerkleAuthPath.fresh).siblings).zip
              (((buildBundle Hc 0 1 [((5 : Nat), true)]).authPath.getD i
                MerkleAuthPath.fresh).childBits))
          = (buildBundle Hc 0 1 [((5 : Nat), true)]).rootHash 0) :=
  ⟨⟨by decide, by decide, by decide⟩,
    C1_snapshot_inv Hc 0 1 [((5 : Nat), true)] (by decide) (by decide) (by decide)⟩

/-- Claim C2 (corrected).  addLeaf on a full accumulator is NOT a no-op:
fullness does not guard the mutation, so the frontier and the size still
change (see the counterexample).  What does hold is that the full flag stays
latched, the frontier depth is preserved and the size still increments. -/
theorem C2_addLeaf_after_full {Dig : Type} (H : Dig → Dig → Dig) (z : Dig)
    (b : MerkleBundle Dig) (cm : Dig) (keep : Bool) (h : b.isFull = true) :
    (b.addLeaf H z cm keep).isFull = true ∧
    (b.addLeaf H z cm keep).treeSize = b.treeSize + 1 ∧
    (b.addLeaf H z cm keep).tree.authPath.depth = b.tree.authPath.depth :=
  ⟨addLeaf_latch H z b cm keep h, rfl, addLeaf_depth H z b cm keep⟩

/-- Counterexample to the original C2: a full depth-1 bundle is mutated by a
subsequent addLeaf (the size and the frontier root both change). -/
theorem C2_counterexample :
    (buildBundle Hc 0 1 [((1 : Nat), false), (2, false)]).isFull = true ∧
    (buildBundle Hc 0 1 [((1 : Nat), false), (2, false)]).addLeaf Hc 0 3 false
      ≠ buildBundle Hc 0 1 [((1 : Nat), false), (2, false)] := by
  decide

/-- Witness for C2 on a concrete full bundle. -/
theorem C2_addLeaf_after_full_witness :
    (buildBundle Hc 0 1 [((1 : Nat), false), (2, false)]).isFull = true ∧
    (((buildBundle Hc 0 1 [((1 : Nat), false), (2, false)]).addLeaf Hc 0 3 false).isFull = true ∧
      ((buildBundle Hc 0 1 [((1 : Nat), false), (2, false)]).addLeaf Hc 0 3 false).treeSize
        = (buildBundle Hc 0 1 [((1 : Nat), false), (2, false)]).treeSize + 1 ∧
      ((buildBundle Hc 0 1 [((1 : Nat), false), (2, false)]).addLeaf Hc 0 3
          false).tree.authPath.depth
        = (buildBundle Hc 0 1 [((1 : Nat), false), (2, false)]).tree.authPath.depth) :=
  ⟨by decide, C2_addLeaf_after_full Hc 0 _ 3 false (by decide)⟩

/-- Claim C3.  For a well-formed AuthPath and any leaf, updatePath(leaf)
recomputes each rootPath[i] as the hash of (left, right), where the value
below is the leaf at level 0 and the freshly written rootPath[i-1] above,
sides chosen by childBits[i]; depth, siblings and childBits are unchanged. -/
theorem C3_updatePath_levels {Dig : Type} (H : Dig → Dig → Dig) (z : Dig)
    (ap : MerkleAuthPath Dig) (leaf : Dig) (h : ap.wff) :
    (ap.updatePath H z leaf).depth = ap.depth ∧
    (ap.updatePath H z leaf).siblings = ap.siblings ∧
    (ap.updatePath H z leaf).childBits = ap.childBits ∧
    (ap.updatePath H z leaf).rootPath.length = ap.depth ∧
    ∀ i, i < ap.depth →
      (ap.updatePath H z leaf).rootPath.getD i z
        = H (ternary (ap.childBits.getD i false) (ap.siblings.getD i z)
              (if i = 0 then leaf else (ap.updatePath H z leaf).rootPath.getD (i - 1) z))
            (ternary (ap.childBits.getD i false)
              (if i = 0 then leaf else (ap.updatePath H z leaf).rootPath.getD (i - 1) z)
              (ap.siblings.getD i z)) := by
  obtain ⟨hd, hrp, hsb, hcb⟩ := h
  have hlen : (ap.updatePath H z leaf).rootPath.length = ap.depth := by
    show (updLoop H z ap.depth ap.siblings ap.childBits ap.depth 0 leaf ap.rootPath
        (([] : List (MerkleAuthPath Dig)).map
          (fun p => (p, matchMSB ap.childBits p.childBits)))).2.1.length = ap.depth
    rw [updLoop_len]
    exact hrp
  have hget : ∀ j, j < ap.depth → (ap.updatePath H z leaf).rootPath.getD j z
      = digAt H z ap.siblings ap.childBits leaf (j + 1) := by
    intro j hj
    have hG := updLoop_rootPath H z ap.depth ap.siblings ap.childBits leaf ap.depth 0
      ap.rootPath
      (([] : List (MerkleAuthPath Dig)).map (fun p => (p, matchMSB ap.childBits p.childBits)))
      z (by omega) j
    rw [if_pos ⟨by omega, by omega⟩] at hG
    exact hG
  refine ⟨rfl, rfl, rfl, hlen, ?_⟩
  intro i hi
  rw [hget i hi]
  cases i with
  | zero =>
    rw [if_pos rfl]
    rfl
  | succ j =>
    rw [if_neg (by omega)]
    rw [show j + 1 - 1 = j from rfl]
    rw [hget j (by omega)]
    rfl

/-- Witness for C3 on a depth-1 path. -/
theorem C3_updatePath_levels_witness :
    (MerkleAuthPath.mk 1 [0] [5] [true] : MerkleAuthPath Nat).wff ∧
    (((MerkleAuthPath.mk 1 [0] [5] [true] : MerkleAuthPath Nat).updatePath Hc 0 3).depth
        = (MerkleAuthPath.mk 1 [0] [5] [true] : MerkleAuthPath Nat).depth ∧
      ((MerkleAuthPath.mk 1 [0] [5] [true] : MerkleAuthPath Nat).updatePath Hc 0 3).siblings
        = (MerkleAuthPath.mk 1 [0] [5] [true] : MerkleAuthPath Nat).siblings ∧
      ((MerkleAuthPath.mk 1 [0] [5] [true] : MerkleAuthPath Nat).updatePath Hc 0 3).childBits
        = (MerkleAuthPath.mk 1 [0] [5] [true] : MerkleAuthPath Nat).childBits ∧
      ((MerkleAuthPath.mk 1 [0] [5] [true] : MerkleAuthPath Nat).updatePath Hc 0
          3).rootPath.length
        = (MerkleAuthPath.mk 1 [0] [5] [true] : MerkleAuthPath Nat).depth ∧
      ∀ i, i < (MerkleAuthPath.mk 1 [0] [5] [true] : MerkleAuthPath Nat).depth →
        ((MerkleAuthPath.mk 1 [0] [5] [true] : MerkleAuthPath Nat).updatePath Hc 0
            3).rootPath.getD i 0
          = Hc (ternary ((MerkleAuthPath.mk 1 [0] [5] [true] :
                MerkleAuthPath Nat).childBits.getD i false)
                ((MerkleAuthPath.mk 1 [0] [5] [true] : MerkleAuthPath Nat).siblings.getD i 0)
                (if i = 0 then 3
                  else ((MerkleAuthPath.mk 1 [0] [5] [true] :
                    MerkleAuthPath Nat).updatePath Hc 0 3).rootPath.getD (i - 1) 0))
              (ternary ((MerkleAuthPath.mk 1 [0] [5] [true] :
                MerkleAuthPath Nat).childBits.getD i false)
                (if i = 0 then 3
                  else ((MerkleAuthPath.mk 1 [0] [5] [true] :
                    MerkleAuthPath Nat).updatePath Hc 0 3).rootPath.getD (i - 1) 0)
                ((MerkleAuthPath.mk 1 [0] [5] [true] : MerkleAuthPath Nat).siblings.getD i 0))) :=
  ⟨by unfold MerkleAuthPath.wff; decide,
    C3_updatePath_levels Hc 0 (MerkleAuthPath.mk 1 [0] [5] [true]) 3
      (by unfold MerkleAuthPath.wff; decide)⟩

/-- Claim C4.  Each retained snapshot carries childBits equal to the bottom-up
little-endian encoding of its insertion index, so its little-endian value IS
the index and snapshots with different indices have different childBits; while
not full, the frontier childBits value equals the index of the next slot. -/
theorem C4_childBits_positions {Dig : Type} (H : Dig → Dig → Dig) (z : Dig)
    (D : Nat) (inserts : List (Dig × Bool)) (hlen : inserts.length ≤ 2 ^ D) :
    (∀ i, i < (buildBundle H z D inserts).authPath.length →
      ((buildBundle H z D inserts).authPath.getD i MerkleAuthPath.fresh).childBits
          = bitsD D ((keptIdx inserts 0).getD i 0) ∧
        bitsVal (((buildBundle H z D inserts).authPath.getD i MerkleAuthPath.fresh).childBits)
          = (keptIdx inserts 0).getD i 0) ∧
    (∀ i j, i < (buildBundle H z D inserts).authPath.length →
      j < (buildBundle H z D inserts).authPath.length →
      (keptIdx inserts 0).getD i 0 ≠ (keptIdx inserts 0).getD j 0 →
      ((buildBundle H z D inserts).authPath.getD i MerkleAuthPath.fresh).childBits
        ≠ ((buildBundle H z D inserts).authPath.getD j MerkleAuthPath.fresh).childBits) ∧
    ((buildBundle H z D inserts).tree.isFull = false →
      bitsVal (buildBundle H z D inserts).tree.authPath.childBits = inserts.length) := by
  obtain ⟨h1, h2, h3, h4, h5, h6, h7, h8, h9⟩ := bundle_inv H z D inserts hlen
  have hA : ∀ i, i < (buildBundle H z D inserts).authPath.length →
      ((buildBundle H z D inserts).authPath.getD i MerkleAuthPath.fresh).childBits
          = bitsD D ((keptIdx inserts 0).getD i 0) ∧
        bitsVal (((buildBundle H z D inserts).authPath.getD i MerkleAuthPath.fresh).childBits)
          = (keptIdx inserts 0).getD i 0 := by
    intro i hi
    have hik : i < (keptIdx inserts 0).length := by
      rw [h9] at hi
      simpa using hi
    have hmm : (keptIdx inserts 0).getD i 0 ∈ keptIdx inserts 0 := getD_mem_of_lt 0 _ i hik
    have hmlt := keptIdx_mem inserts 0 _ hmm
    rw [h9,
      getD_map_lt (fun m => idealPath H z (inserts.map Prod.fst) D m) MerkleAuthPath.fresh 0
        _ i hik]
    refine ⟨rfl, ?_⟩
    show bitsVal (bitsD D ((keptIdx inserts 0).getD i 0)) = (keptIdx inserts 0).getD i 0
    exact bitsVal_bitsD D _ (by omega)
  refine ⟨hA, ?_, ?_⟩
  · intro i j hi hj hne heq
    apply hne
    have hvi := (hA i hi).2
    have hvj := (hA j hj).2
    rw [← hvi, ← hvj, heq]
  · intro hfull
    rw [h2] at hfull
    have hne2 : inserts.length ≠ 2 ^ D := by simpa using hfull
    rw [h4]
    exact bitsVal_bitsD D _ (by omega)

/-- Witness for C4 at depth 2 with a kept and a dropped insertion. -/
theorem C4_childBits_positions_witness :
    ([((4 : Nat), true), (9, true), (6, false)] : List (Nat × Bool)).length ≤ 2 ^ 2 ∧
    ((∀ i, i < (buildBundle Hc 0 2 [((4 : Nat), true), (9, true), (6, false)]).authPath.length →
      ((buildBundle Hc 0 2 [((4 : Nat), true), (9, true), (6, false)]).authPath.getD i
          MerkleAuthPath.fresh).childBits
          = bitsD 2 ((keptIdx [((4 : Nat), true), (9, true), (6, false)] 0).getD i 0) ∧
        bitsVal (((buildBundle Hc 0 2 [((4 : Nat), true), (9, true), (6, false)]).authPath.getD i
            MerkleAuthPath.fresh).childBits)
          = (keptIdx [((4 : Nat), true), (9, true), (6, false)] 0).getD i 0) ∧
    (∀ i j, i < (buildBundle Hc 0 2 [((4 : Nat), true), (9, true), (6, false)]).authPath.length →
      j < (buildBundle Hc 0 2 [((4 : Nat), true), (9, true), (6, false)]).authPath.length →
      (keptIdx [((4 : Nat), true), (9, true), (6, false)] 0).getD i 0
        ≠ (keptIdx [((4 : Nat), true), (9, true), (6, false)] 0).getD j 0 →
      ((buildBundle Hc 0 2 [((4 : Nat), true), (9, true), (6, false)]).authPath.getD i
          MerkleAuthPath.fresh).childBits
        ≠ ((buildBundle Hc 0 2 [((4 : Nat), true), (9, true), (6, false)]).authPath.getD j
          MerkleAuthPath.fresh).childBits) ∧
    ((buildBundle Hc 0 2 [((4 : Nat), true), (9, true), (6, false)]).tree.isFull = false →
      bitsVal (buildBundle Hc 0 2
          [((4 : Nat), true), (9, true), (6, false)]).tree.authPath.childBits
        = ([((4 : Nat), true), (9, true), (6, false)] : List (Nat × Bool)).length)) :=
  ⟨by decide, C4_childBits_positions Hc 0 2 [((4 : Nat), true), (9, true), (6, false)] (by decide)⟩

/-- Claim C5.  On a fresh depth-D bundle, isFull() is true exactly when 2^D
addLeaf calls have been made, and false before. -/
theorem C5_fullness {Dig : Type} (H : Dig → Dig → Dig) (z : Dig) (D : Nat)
    (inserts : List (Dig × Bool)) (hlen : inserts.length ≤ 2 ^ D) :
    ((buildBundle H z D inserts).isFull = true ↔ inserts.length = 2 ^ D) := by
  obtain ⟨h1, h2, h3, h4, h5, h6, h7, h8, h9⟩ := bundle_inv H z D inserts hlen
  show (buildBundle H z D inserts).tree.isFull = true ↔ _
  rw [h2]
  simp

/-- Witness for C5: full after two inserts at depth 1, not full after one. -/
theorem C5_fullness_witness :
    ([((1 : Nat), false), (2, false)] : List (Nat × Bool)).length ≤ 2 ^ 1 ∧
    ((buildBundle Hc 0 1 [((1 : Nat), false), (2, false)]).isFull = true
      ↔ ([((1 : Nat), false), (2, false)] : List (Nat × Bool)).length = 2 ^ 1) :=
  ⟨by decide, C5_fullness Hc 0 1 [((1 : Nat), false), (2, false)] (by decide)⟩

/-- Claim C6 (corrected).  Writing a value with marshal_out and reading the
stream back with marshal_in into any receiver restores the value field-wise
and reports success for every well-formed AuthPath (positive depth, vectors
of that length), Accumulator and Bundle (paths as many as leaves, all
well-formed) -- but NOT for the default-constructed depth-0 sentinel, whose
read-back reports failure (see the counterexample). -/
theorem C6_marshal_roundtrip {Dig : Type} (z : Dig)
    (ap q : MerkleAuthPath Dig) (t qt : MerkleTree Dig) (b qb : MerkleBundle Dig)
    (rest1 rest2 rest3 : List (Tok Dig))
    (hap : ap.wff) (ht : t.authPath.wff) (hb : b.tree.authPath.wff)
    (hbl : b.authPath.length = b.authLeaf.length) (hbw : ∀ p ∈ b.authPath, p.wff) :
    q.marshal_in z (ap.marshal_out ++ rest1) = (ap, rest1, true) ∧
    qt.marshal_in z (t.marshal_out ++ rest2) = (t, rest2, true) ∧
    qb.marshal_in z (b.marshal_out ++ rest3) = (b, rest3, true) :=
  ⟨marshal_roundtrip_ap z ap q rest1 hap,
    marshal_roundtrip_tree z t qt rest2 ht,
    marshal_roundtrip_bundle z b qb rest3 hb hbl hbw⟩

/-- Counterexample to the original C6: the round trip on the depth-0
sentinel AuthPath reports failure, because marshal_in rejects a zero depth. -/
theorem C6_counterexample :
    ((MerkleAuthPath.fresh : MerkleAuthPath Nat).marshal_in 0
        (MerkleAuthPath.fresh : MerkleAuthPath Nat).marshal_out).2.2 = false := by
  decide

/-- Witness for C6 on concrete depth-1 values read into fresh receivers. -/
theorem C6_marshal_roundtrip_witness :
    ((MerkleAuthPath.mk 1 [3] [4] [true] : MerkleAuthPath Nat).wff ∧
      (MerkleTree.mk false (MerkleAuthPath.mk 1 [3] [4] [true]) :
        MerkleTree Nat).authPath.wff ∧
      (MerkleBundle.mk (MerkleTree.mk false (MerkleAuthPath.mk 1 [3] [4] [true])) 1 [3]
        [MerkleAuthPath.mk 1 [3] [4] [true]] : MerkleBundle Nat).tree.authPath.wff ∧
      (MerkleBundle.mk (MerkleTree.mk false (MerkleAuthPath.mk 1 [3] [4] [true])) 1 [3]
        [MerkleAuthPath.mk 1 [3] [4] [true]] : MerkleBundle Nat).authPath.length
        = (MerkleBundle.mk (MerkleTree.mk false (MerkleAuthPath.mk 1 [3] [4] [true])) 1 [3]
          [MerkleAuthPath.mk 1 [3] [4] [true]] : MerkleBundle Nat).authLeaf.length ∧
      (∀ p ∈ (MerkleBundle.mk (MerkleTree.mk false (MerkleAuthPath.mk 1 [3] [4] [true])) 1 [3]
          [MerkleAuthPath.mk 1 [3] [4] [true]] : MerkleBundle Nat).authPath, p.wff)) ∧
    ((MerkleAuthPath.fresh : MerkleAuthPath Nat).marshal_in 0
        ((MerkleAuthPath.mk 1 [3] [4] [true]).marshal_out ++ [])
        = (MerkleAuthPath.mk 1 [3] [4] [true], [], true) ∧
      (MerkleTree.fresh : MerkleTree Nat).marshal_in 0
        ((MerkleTree.mk false (MerkleAuthPath.mk 1 [3] [4] [true])).marshal_out ++ [])
        = (MerkleTree.mk false (MerkleAuthPath.mk 1 [3] [4] [true]), [], true) ∧
      (MerkleBundle.fresh : MerkleBundle Nat).marshal_in 0
        ((MerkleBundle.mk (MerkleTree.mk false (MerkleAuthPath.mk 1 [3] [4] [true])) 1 [3]
          [MerkleAuthPath.mk 1 [3] [4] [true]]).marshal_out ++ [])
        = (MerkleBundle.mk (MerkleTree.mk false (MerkleAuthPath.mk 1 [3] [4] [true])) 1 [3]
          [MerkleAuthPath.mk 1 [3] [4] [true]], [], true)) :=
  ⟨⟨by unfold MerkleAuthPath.wff; decide, by unfold MerkleAuthPath.wff; decide,
      by unfold MerkleAuthPath.wff; decide, by decide,
      by unfold MerkleAuthPath.wff; decide⟩,
    C6_marshal_roundtrip 0 (MerkleAuthPath.mk 1 [3] [4] [true]) MerkleAuthPath.fresh
      (MerkleTree.mk false (MerkleAuthPath.mk 1 [3] [4] [true])) MerkleTree.fresh
      (MerkleBundle.mk (MerkleTree.mk false (MerkleAuthPath.mk 1 [3] [4] [true])) 1 [3]
        [MerkleAuthPath.mk 1 [3] [4] [true]]) MerkleBundle.fresh [] [] []
      (by unfold MerkleAuthPath.wff; decide) (by unfold MerkleAuthPath.wff; decide)
      (by unfold MerkleAuthPath.wff; decide) (by decide)
      (by unfold MerkleAuthPath.wff; decide)⟩

/-- Claim C7 (corrected).  When marshal_in fails, the AuthPath receiver is
left with depth 0 and the Accumulator receiver with isFull true, whatever the
malformed stream; the Bundle receiver however is NOT reset to an empty state
(see the counterexample), contrary to the spec. -/
theorem C7_marshal_in_failure {Dig : Type} (z : Dig) (ap : MerkleAuthPath Dig)
    (t : MerkleTree Dig) (ts1 ts2 : List (Tok Dig))
    (h1 : (ap.marshal_in z ts1).2.2 = false)
    (h2 : (t.marshal_in z ts2).2.2 = false) :
    (ap.marshal_in z ts1).1.depth = 0 ∧ (t.marshal_in z ts2).1.isFull = true := by
  constructor
  · rcases ap_marshal_in_state z ap ts1 with h | h
    · exact h
    · rw [h1] at h
      simp at h
  · rcases tree_marshal_in_state z t ts2 with h | h
    · exact h
    · rw [h2] at h
      simp at h

/-- Counterexample to the original C7: a failing Bundle marshal_in leaves the
receiver holding its previous (non-empty) retained state, not the empty
default-constructed state. -/
theorem C7_counterexample :
    ((MerkleBundle.mk MerkleTree.fresh 5 [7] [] : MerkleBundle Nat).marshal_in 0 []).2.2
        = false ∧
      ((MerkleBundle.mk MerkleTree.fresh 5 [7] [] : MerkleBundle Nat).marshal_in 0
          []).1.authLeaf ≠ [] ∧
      ((MerkleBundle.mk MerkleTree.fresh 5 [7] [] : MerkleBundle Nat).marshal_in 0
          []).1.treeSize ≠ 0 := by
  decide

/-- Witness for C7 on the empty (hence malformed) stream. -/
theorem C7_marshal_in_failure_witness :
    (((MerkleAuthPath.fresh : MerkleAuthPath Nat).marshal_in 0 []).2.2 = false ∧
      ((MerkleTree.fresh : MerkleTree Nat).marshal_in 0 []).2.2 = false) ∧
    (((MerkleAuthPath.fresh : MerkleAuthPath Nat).marshal_in 0 []).1.depth = 0 ∧
      ((MerkleTree.fresh : MerkleTree Nat).marshal_in 0 []).1.isFull = true) :=
  ⟨⟨by decide, by decide⟩,
    C7_marshal_in_failure 0 MerkleAuthPath.fresh MerkleTree.fresh [] []
      (by decide) (by decide)⟩

/-- Claim C8.  authGarbageCollect(keepSet) keeps exactly the leaf/path pairs
whose leaf is in the keep-set, paired and in their original relative order:
the retained leaves are the filter of authLeaf, the retained paths are the
corresponding components of the filtered zip, and the lengths match; the rest
of the bundle is untouched. -/
theorem C8_authGarbageCollect {Dig : Type} (z : Dig) (b : MerkleBundle Dig)
    (keep : Dig → Bool) (hl : b.authLeaf.length = b.authPath.length) :
    (b.authGarbageCollect z keep).authLeaf = b.authLeaf.filter keep ∧
    (b.authGarbageCollect z keep).authPath
      = ((b.authLeaf.zip b.authPath).filter (fun q => keep q.1)).map Prod.snd ∧
    ((b.authGarbageCollect z keep).authLeaf).zip ((b.authGarbageCollect z keep).authPath)
      = (b.authLeaf.zip b.authPath).filter (fun q => keep q.1) ∧
    (b.authGarbageCollect z keep).authLeaf.length = (b.authLeaf.filter keep).length ∧
    (b.authGarbageCollect z keep).authPath.length
      = (b.authGarbageCollect z keep).authLeaf.length ∧
    (b.authGarbageCollect z keep).tree = b.tree ∧
    (b.authGarbageCollect z keep).treeSize = b.treeSize := by
  have hz := gc_zip z MerkleAuthPath.fresh keep b.authLeaf b.authPath hl
  have hfst : (b.authGarbageCollect z keep).authLeaf
      = ((b.authLeaf.zip b.authPath).filter (fun q => keep q.1)).map Prod.fst := by
    show ((List.range b.authLeaf.length).filter (fun i => keep (b.authLeaf.getD i z))).map
        (fun i => b.authLeaf.getD i z) = _
    rw [← hz, List.map_map]
    rfl
  have hsnd : (b.authGarbageCollect z keep).authPath
      = ((b.authLeaf.zip b.authPath).filter (fun q => keep q.1)).map Prod.snd := by
    show ((List.range b.authLeaf.length).filter (fun i => keep (b.authLeaf.getD i z))).map
        (fun i => b.authPath.getD i MerkleAuthPath.fresh) = _
    rw [← hz, List.map_map]
    rfl
  have hzip : ((b.authGarbageCollect z keep).authLeaf).zip
        ((b.authGarbageCollect z keep).authPath)
      = (b.authLeaf.zip b.authPath).filter (fun q => keep q.1) := by
    show (((List.range b.authLeaf.length).filter (fun i => keep (b.authLeaf.getD i z))).map
        (fun i => b.authLeaf.getD i z)).zip
        (((List.range b.authLeaf.length).filter (fun i => keep (b.authLeaf.getD i z))).map
          (fun i => b.authPath.getD i MerkleAuthPath.fresh))
      = _
    rw [List.zip_map']
    exact hz
  have hleaf : (b.authGarbageCollect z keep).authLeaf = b.authLeaf.filter keep := by
    rw [hfst]
    have hfn : (fun q : Dig × MerkleAuthPath Dig => keep q.1) = keep ∘ Prod.fst := rfl
    rw [hfn, ← List.filter_map, List.map_fst_zip b.authLeaf b.authPath (le_of_eq hl)]
  refine ⟨hleaf, hsnd, hzip, congrArg List.length hleaf, ?_, rfl, rfl⟩
  rw [hsnd, hfst]
  simp

/-- Witness for C8 on a two-entry bundle with an odd-valued keep-set. -/
theorem C8_authGarbageCollect_witness :
    (MerkleBundle.mk MerkleTree.fresh 2 [3, 4]
        [MerkleAuthPath.mk 1 [3] [9] [true], MerkleAuthPath.mk 1 [4] [9] [false]] :
      MerkleBundle Nat).authLeaf.length
      = (MerkleBundle.mk MerkleTree.fresh 2 [3, 4]
          [MerkleAuthPath.mk 1 [3] [9] [true], MerkleAuthPath.mk 1 [4] [9] [false]] :
        MerkleBundle Nat).authPath.length ∧
    (((MerkleBundle.mk MerkleTree.fresh 2 [3, 4]
          [MerkleAuthPath.mk 1 [3] [9] [true], MerkleAuthPath.mk 1 [4] [9] [false]] :
        MerkleBundle Nat).authGarbageCollect 0 (fun d => decide (d % 2 = 1))).authLeaf
        = ([3, 4] : List Nat).filter (fun d => decide (d % 2 = 1)) ∧
      ((MerkleBundle.mk MerkleTree.fresh 2 [3, 4]
          [MerkleAuthPath.mk 1 [3] [9] [true], MerkleAuthPath.mk 1 [4] [9] [false]] :
        MerkleBundle Nat).authGarbageCollect 0 (fun d => decide (d % 2 = 1))).authPath
        = ((([3, 4] : List Nat).zip
            [MerkleAuthPath.mk 1 [3] [9] [true], MerkleAuthPath.mk 1 [4] [9] [false]]).filter
            (fun q => decide (q.1 % 2 = 1))).map Prod.snd ∧
      (((MerkleBundle.mk MerkleTree.fresh 2 [3, 4]
          [MerkleAuthPath.mk 1 [3] [9] [true], MerkleAuthPath.mk 1 [4] [9] [false]] :
        MerkleBundle Nat).authGarbageCollect 0 (fun d => decide (d % 2 = 1))).authLeaf).zip
          (((MerkleBundle.mk MerkleTree.fresh 2 [3, 4]
            [MerkleAuthPath.mk 1 [3] [9] [true], MerkleAuthPath.mk 1 [4] [9] [false]] :
          MerkleBundle Nat).authGarbageCollect 0 (fun d => decide (d % 2 = 1))).authPath)
        = (([3, 4] : List Nat).zip
            [MerkleAuthPath.mk 1 [3] [9] [true], MerkleAuthPath.mk 1 [4] [9] [false]]).filter
            (fun q => decide (q.1 % 2 = 1)) ∧
      ((MerkleBundle.mk MerkleTree.fresh 2 [3, 4]
          [MerkleAuthPath.mk 1 [3] [9] [true], MerkleAuthPath.mk 1 [4] [9] [false]] :
        MerkleBundle Nat).authGarbageCollect 0 (fun d => decide (d % 2 = 1))).authLeaf.length
        = (([3, 4] : List Nat).filter (fun d => decide (d % 2 = 1))).length ∧
      ((MerkleBundle.mk MerkleTree.fresh 2 [3, 4]
          [MerkleAuthPath.mk 1 [3] [9] [true], MerkleAuthPath.mk 1 [4] [9] [false]] :
        MerkleBundle Nat).authGarbageCollect 0 (fun d => decide (d % 2 = 1))).authPath.length
        = ((MerkleBundle.mk MerkleTree.fresh 2 [3, 4]
            [MerkleAuthPath.mk 1 [3] [9] [true], MerkleAuthPath.mk 1 [4] [9] [false]] :
          MerkleBundle Nat).authGarbageCollect 0 (fun d => decide (d % 2 = 1))).authLeaf.length ∧
      ((MerkleBundle.mk MerkleTree.fresh 2 [3, 4]
          [MerkleAuthPath.mk 1 [3] [9] [true], MerkleAuthPath.mk 1 [4] [9] [false]] :
        MerkleBundle Nat).authGarbageCollect 0 (fun d => decide (d % 2 = 1))).tree
        = (MerkleBundle.mk MerkleTree.fresh 2 [3, 4]
            [MerkleAuthPath.mk 1 [3] [9] [true], MerkleAuthPath.mk 1 [4] [9] [false]] :
          MerkleBundle Nat).tree ∧
      ((MerkleBundle.mk MerkleTree.fresh 2 [3, 4]
          [MerkleAuthPath.mk 1 [3] [9] [true], MerkleAuthPath.mk 1 [4] [9] [false]] :
        MerkleBundle Nat).authGarbageCollect 0 (fun d => decide (d % 2 = 1))).treeSize
        = (MerkleBundle.mk MerkleTree.fresh 2 [3, 4]
            [MerkleAuthPath.mk 1 [3] [9] [true], MerkleAuthPath.mk 1 [4] [9] [false]] :
          MerkleBundle Nat).treeSize) :=
  ⟨by decide,
    C8_authGarbageCollect 0
      (MerkleBundle.mk MerkleTree.fresh 2 [3, 4]
        [MerkleAuthPath.mk 1 [3] [9] [true], MerkleAuthPath.mk 1 [4] [9] [false]])
      (fun d => decide (d % 2 = 1)) (by decide)⟩

/-- Frame facts for the final leafSibling patch applied to one old path at
the end of updatePath. -/
lemma finalf_frame {Dig : Type} (H : Dig → Dig → Dig) (z : Dig)
    (sibs : List Dig) (cbits : List Bool) (leaf : Dig) (depth : Nat)
    (p : MerkleAuthPath Dig) (ov : Nat) :
    (if (depth : Int) - 1 = (ov : Int) then
        { patchSeq H z sibs cbits leaf depth depth 0 p ov with
          siblings := (patchSeq H z sibs cbits leaf depth depth 0 p ov).siblings.set 0 leaf }
      else patchSeq H z sibs cbits leaf depth depth 0 p ov).depth = p.depth ∧
    (if (depth : Int) - 1 = (ov : Int) then
        { patchSeq H z sibs cbits leaf depth depth 0 p ov with
          siblings := (patchSeq H z sibs cbits leaf depth depth 0 p ov).siblings.set 0 leaf }
      else patchSeq H z sibs cbits leaf depth depth 0 p ov).childBits = p.childBits ∧
    (if (depth : Int) - 1 = (ov : Int) then
        { patchSeq H z sibs cbits leaf depth depth 0 p ov with
          siblings := (patchSeq H z sibs cbits leaf depth depth 0 p ov).siblings.set 0 leaf }
      else patchSeq H z sibs cbits leaf depth depth 0 p ov).rootPath.length
      = p.rootPath.length ∧
    (if (depth : Int) - 1 = (ov : Int) then
        { patchSeq H z sibs cbits leaf depth depth 0 p ov with
          siblings := (patchSeq H z sibs cbits leaf depth depth 0 p ov).siblings.set 0 leaf }
      else patchSeq H z sibs cbits leaf depth depth 0 p ov).siblings.length
      = p.siblings.length := by
  have hps := patchSeq_frame H z sibs cbits leaf depth depth 0 p ov
  by_cases hc : (depth : Int) - 1 = (ov : Int)
  · rw [if_pos hc]
    refine ⟨hps.1, hps.2.1, hps.2.2.1, ?_⟩
    show ((patchSeq H z sibs cbits leaf depth depth 0 p ov).siblings.set 0 leaf).length = _
    rw [List.length_set]
    exact hps.2.2.2
  · rw [if_neg hc]
    exact hps

/-- Claim C9.  updatePath(leaf, oldPaths) writes only the rootPath of the
receiver (depth, siblings and childBits are returned unchanged) and, for the
old paths, writes only rootPath and siblings entries in place: their number,
and the depth, childBits and vector lengths of every old path, are unchanged. -/
theorem C9_updatePath_frame {Dig : Type} (H : Dig → Dig → Dig) (z : Dig)
    (ap : MerkleAuthPath Dig) (leaf : Dig) (olds : List (MerkleAuthPath Dig)) :
    (ap.updatePathOld H z leaf olds).1.depth = ap.depth ∧
    (ap.updatePathOld H z leaf olds).1.siblings = ap.siblings ∧
    (ap.updatePathOld H z leaf olds).1.childBits = ap.childBits ∧
    (ap.updatePathOld H z leaf olds).2.length = olds.length ∧
    ∀ i : Nat,
      ((ap.updatePathOld H z leaf olds).2.getD i MerkleAuthPath.fresh).depth
          = (olds.getD i MerkleAuthPath.fresh).depth ∧
        ((ap.updatePathOld H z leaf olds).2.getD i MerkleAuthPath.fresh).childBits
          = (olds.getD i MerkleAuthPath.fresh).childBits ∧
        ((ap.updatePathOld H z leaf olds).2.getD i MerkleAuthPath.fresh).rootPath.length
          = (olds.getD i MerkleAuthPath.fresh).rootPath.length ∧
        ((ap.updatePathOld H z leaf olds).2.getD i MerkleAuthPath.fresh).siblings.length
          = (olds.getD i MerkleAuthPath.fresh).siblings.length := by
  have hol : (updLoop H z ap.depth ap.siblings ap.childBits ap.depth 0 leaf ap.rootPath
      (olds.map (fun p => (p, matchMSB ap.childBits p.childBits)))).2.2
      = (olds.map (fun p => (p, matchMSB ap.childBits p.childBits))).map
          (fun q => (patchSeq H z ap.siblings ap.childBits leaf ap.depth ap.depth 0
            q.1 q.2, q.2)) :=
    updLoop_olds H z ap.depth ap.siblings ap.childBits leaf ap.depth 0 ap.rootPath _
  have h2 : (ap.updatePathOld H z leaf olds).2
      = ((olds.map (fun p => (p, matchMSB ap.childBits p.childBits))).map
          (fun q => (patchSeq H z ap.siblings ap.childBits leaf ap.depth ap.depth 0
            q.1 q.2, q.2))).map
        (fun q => if (ap.depth : Int) - 1 = (q.2 : Int) then
            { q.1 with siblings := q.1.siblings.set 0 leaf }
          else q.1) := by
    show ((updLoop H z ap.depth ap.siblings ap.childBits ap.depth 0 leaf ap.rootPath
        (olds.map (fun p => (p, matchMSB ap.childBits p.childBits)))).2.2).map _ = _
    rw [hol]
  have hlen : (ap.updatePathOld H z leaf olds).2.length = olds.length := by
    rw [h2]
    simp
  refine ⟨rfl, rfl, rfl, hlen, ?_⟩
  intro i
  rcases Nat.lt_or_ge i olds.length with hi | hi
  · rw [h2, List.map_map, List.map_map,
      getD_map_lt _ MerkleAuthPath.fresh MerkleAuthPath.fresh olds i hi]
    exact finalf_frame H z ap.siblings ap.childBits leaf ap.depth
      (olds.getD i MerkleAuthPath.fresh)
      (matchMSB ap.childBits (olds.getD i MerkleAuthPath.fresh).childBits)
  · rw [getD_zero_default MerkleAuthPath.fresh _ i (by omega : olds.length ≤ i),
      getD_zero_default MerkleAuthPath.fresh (ap.updatePathOld H z leaf olds).2 i
        (by rw [hlen]; omega)]
    exact ⟨rfl, rfl, rfl, rfl⟩

/-- Claim C10.  isFull is latched: once an accumulator reports full, it stays
full across any sequence of updatePath, updateSiblings, leafSibling,
hashSibling and bundle addLeaf operations. -/
theorem C10_isFull_latched {Dig : Type} (H : Dig → Dig → Dig) (z : Dig)
    (b : MerkleBundle Dig) (ops : List (AccOp Dig)) (h : b.tree.isFull = true) :
    (ops.foldl (applyOp H z) b).tree.isFull = true :=
  foldl_latch H z ops b h

/-- Witness for C10 on the default-constructed (full) bundle and one
operation of every kind. -/
theorem C10_isFull_latched_witness :
    (MerkleBundle.fresh : MerkleBundle Nat).tree.isFull = true ∧
    (([AccOp.addLf 1 true, AccOp.updSibs 2, AccOp.updPath 3, AccOp.leafSib 4,
        AccOp.hashSib 0] : List (AccOp Nat)).foldl (applyOp Hc 0)
      MerkleBundle.fresh).tree.isFull = true :=
  ⟨by decide,
    C10_isFull_latched Hc 0 MerkleBundle.fresh
      [AccOp.addLf 1 true, AccOp.updSibs 2, AccOp.updPath 3, AccOp.leafSib 4,
        AccOp.hashSib 0] (by decide)⟩
